import Mathlib

/-
Verification of the scrapy-patterns category-crawl core: the site structure
tree, the site structure discoverer (pending-work counter, recursive fan-out)
and the category based spider (traversal, visited propagation, persistence).

Source files embedded:
  scrapy_patterns/spiderlings/site_structure_discoverer.py
  scrapy_patterns/spiders/category_based_spider.py

The site structure module (Node, VisitState, SiteStructure operations), the
spider state holder and the pager are collaborators whose code is not part of
the two embedded files; they are modelled from the specification document,
each such definition carries a comment saying so.
-/

set_option maxHeartbeats 1600000

namespace ScrapyPatterns

/-- Modelled from the spec: per-node lifecycle tag of the site structure,
one of NEW, IN_PROGRESS, VISITED. -/
inductive VisitState where
  | NEW
  | IN_PROGRESS
  | VISITED
deriving DecidableEq, Repr

/-- Modelled from the spec: a node of the category tree. A node has a name
segment, an optional URL (set once from discovery; intermediate nodes created
by insertion have none), a visit state, and an ordered list of children
(insertion order is discovery order). The parent back-reference of the source
is represented implicitly: all operations are path directed from the root. -/
inductive Node where
  | mk (nm : String) (u : Option String) (vs : VisitState) (cs : List Node)

def Node.name : Node → String
  | .mk n _ _ _ => n

def Node.url : Node → Option String
  | .mk _ u _ _ => u

def Node.visit_state : Node → VisitState
  | .mk _ _ s _ => s

def Node.children : Node → List Node
  | .mk _ _ _ cs => cs

/-- Replace only the visit state of a node, keeping everything else. -/
def Node.withState (s : VisitState) : Node → Node
  | .mk n u _ cs => .mk n u s cs

/-- Modelled from the spec: look up an existing child by name (first match,
sibling names are unique in trees built by discovery). -/
def getChild : List Node → String → Option Node
  | [], _ => none
  | c :: cs, seg => if c.name == seg then some c else getChild cs seg

/-- Apply a function to the first child carrying the given name, keep the
rest; the list is unchanged when no child carries the name. -/
def replaceChild : List Node → String → (Node → Node) → List Node
  | [], _, _ => []
  | c :: cs, seg, f => if c.name == seg then f c :: cs else c :: replaceChild cs seg f

/-- Modelled from the spec: get_node_at_path, fails (none) if any segment is
missing. Paths are represented as segment lists; the source joins segments
with a slash and re-splits them on lookup. -/
def getNodeAtPath : Node → List String → Option Node
  | t, [] => some t
  | t, seg :: rest => (getChild t.children seg).bind (fun c => getNodeAtPath c rest)

mutual
/-- Modelled from the spec: force the same state on a node and every one of
its descendants (the propagating branch of set_visit_state). -/
def setAll (s : VisitState) : Node → Node
  | .mk n u _ cs => .mk n u s (setAllL s cs)

def setAllL (s : VisitState) : List Node → List Node
  | [] => []
  | c :: cs => setAll s c :: setAllL s cs
end

/-- Modelled from the spec: set_visit_state at the node addressed by the
path; when propagate is true the same state is forced on every descendant.
A path with a missing segment leaves the tree unchanged. -/
def setVisitStateAt : Node → List String → VisitState → Bool → Node
  | t, [], s, prop => if prop then setAll s t else t.withState s
  | t, seg :: rest, s, prop =>
      .mk t.name t.url t.visit_state (replaceChild t.children seg (fun c => setVisitStateAt c rest s prop))

/-- Modelled from the spec: insert-by-path (add_node_with_path): walks and
creates intermediate nodes (new nodes default to NEW, no URL), sets the URL
on the terminal node; an existing child is looked up by name before creating
one, new children are appended at the end. -/
def addNodeWithPath : Node → List String → String → Node
  | t, [], u => .mk t.name (some u) t.visit_state t.children
  | t, seg :: rest, u =>
      match getChild t.children seg with
      | some _ => .mk t.name t.url t.visit_state
          (replaceChild t.children seg (fun c => addNodeWithPath c rest u))
      | none => .mk t.name t.url t.visit_state
          (t.children ++ [addNodeWithPath (Node.mk seg none .NEW []) rest u])

/-- Modelled from the spec: the string-path entry point of insertion; the
source splits the slash-joined path into segments. -/
def addNodeWithPathString (t : Node) (p : String) (u : String) : Node :=
  addNodeWithPath t (p.splitOn "/") u

mutual
/-- Modelled from the spec: find_leaf_with_visit_state, a pre-order
traversal returning the path of the first leaf (node with no children)
carrying the given visit state; none signals traversal completion. -/
def findLeafPath (s : VisitState) : Node → Option (List String)
  | .mk _ _ st cs =>
      match cs with
      | [] => if st == s then some [] else none
      | _ :: _ => findLeafPathL s cs

def findLeafPathL (s : VisitState) : List Node → Option (List String)
  | [] => none
  | c :: cs =>
      match findLeafPath s c with
      | some p => some (c.name :: p)
      | none => findLeafPathL s cs
end

/-- Embeds CategoryBasedSpider.__are_category_children_visited: every child
of the node carries state VISITED. -/
def childrenVisited (n : Node) : Bool :=
  n.children.all (fun c => c.visit_state == .VISITED)

/-- Embeds CategoryBasedSpider.__propagate_visited_if_siblings_visited,
recast as structural recursion on the reversed path of the just-set node:
while the node has a parent and every child of the parent is VISITED, the
parent is set VISITED and the walk continues at the parent. -/
def propagateUpR : Node → List String → Node
  | t, [] => t
  | t, _ :: rrest =>
      let par := rrest.reverse
      match getNodeAtPath t par with
      | some pn =>
          if childrenVisited pn then propagateUpR (setVisitStateAt t par .VISITED false) rrest
          else t
      | none => t

/-- Embeds the tree effect of CategoryBasedSpider.__on_paging_finished: the
current leaf is set VISITED without propagation, then visited-ness is
propagated up the ancestor chain while all siblings are VISITED. -/
def visitLeafAndPropagate (t : Node) (p : List String) : Node :=
  propagateUpR (setVisitStateAt t p .VISITED false) p.reverse

/-- Visit state of the node addressed by a path. -/
def visitAt (t : Node) (q : List String) : Option VisitState :=
  (getNodeAtPath t q).map Node.visit_state

/-- Whether every child of the node addressed by a path is VISITED. -/
def childrenVisitedAt (t : Node) (q : List String) : Option Bool :=
  (getNodeAtPath t q).map childrenVisited

mutual
/-- Tree consistency: every VISITED node has all children VISITED. -/
def consistent : Node → Bool
  | .mk _ _ st cs => (!(st == .VISITED) || cs.all (fun c => c.visit_state == .VISITED)) && consistentL cs

def consistentL : List Node → Bool
  | [] => true
  | c :: cs => consistent c && consistentL cs
end

mutual
/-- Every node of the subtree is VISITED. -/
def subtreeVisited : Node → Bool
  | .mk _ _ st cs => (st == .VISITED) && subtreeVisitedL cs

def subtreeVisitedL : List Node → Bool
  | [] => true
  | c :: cs => subtreeVisited c && subtreeVisitedL cs
end

mutual
/-- Every IN_PROGRESS node of the tree is a leaf; equivalently, non-leaf
nodes only hold NEW or VISITED. -/
def inProgLeaves : Node → Bool
  | .mk _ _ st cs => (!(st == .IN_PROGRESS) || cs.isEmpty) && inProgLeavesL cs

def inProgLeavesL : List Node → Bool
  | [] => true
  | c :: cs => inProgLeaves c && inProgLeavesL cs
end

mutual
/-- Number of IN_PROGRESS nodes in the tree. -/
def countInProg : Node → Nat
  | .mk _ _ st cs => (if st = .IN_PROGRESS then 1 else 0) + countInProgL cs

def countInProgL : List Node → Nat
  | [] => 0
  | c :: cs => countInProg c + countInProgL cs
end

mutual
/-- Every node of the tree carries state NEW. -/
def allNew : Node → Bool
  | .mk _ _ st cs => (st == .NEW) && allNewL cs

def allNewL : List Node → Bool
  | [] => true
  | c :: cs => allNew c && allNewL cs
end

/-- Membership test on a list of strings. -/
def containsStr : List String → String → Bool
  | [], _ => false
  | x :: xs, y => (x == y) || containsStr xs y

/-- No duplicate in a list of strings. -/
def nodupB : List String → Bool
  | [] => true
  | x :: xs => (!(containsStr xs x)) && nodupB xs

mutual
/-- Sibling names are unique everywhere in the tree. -/
def uniqNames : Node → Bool
  | .mk _ _ _ cs => nodupB (cs.map Node.name) && uniqNamesL cs

def uniqNamesL : List Node → Bool
  | [] => true
  | c :: cs => uniqNames c && uniqNamesL cs
end

/-- Boolean path-lead test: the first list is a lead (initial segment,
possibly equal) of the second. -/
def isLead : List String → List String → Bool
  | [], _ => true
  | _ :: _, [] => false
  | a :: as, b :: bs => (a == b) && isLead as bs

/-- Boolean strict path-lead test: a lead and not the whole path. -/
def isStrictLead : List String → List String → Bool
  | [], [] => false
  | [], _ :: _ => true
  | _ :: _, [] => false
  | a :: as, b :: bs => (a == b) && isStrictLead as bs

/-! ## Discovery engine: SiteStructureDiscoverer -/

/-- A dispatched fetch task of the discoverer: the request URL together with
the cb_kwargs context category_index and path of
SiteStructureDiscoverer.__process_category_response. -/
structure DTask where
  url : String
  level : Nat
  path : Option String
deriving DecidableEq, Repr

/-- One yielded value of the discovery generator: either the value returned
by the completion callback or a follow-up fetch request. The generator may
also yield a plain None, written as the surrounding Option none. -/
inductive DOut (α : Type) where
  | cont (a : α)
  | fetch (t : DTask)

/-- Embeds line 64 of the discoverer: structure_path is the bare name at the
root level, otherwise parent_path, a slash, and the name. -/
def joinPath : Option String → String → String
  | none, n => n
  | some p, n => p ++ "/" ++ n

/-- State of an in-flight discovery run: the pending-work counter
(__remaining_work), the category tree under construction (structure), the
dispatched-but-unresolved fetch tasks, and the number of completion-callback
invocations performed so far. -/
structure DiscSt where
  remaining : Int
  tree : Node
  pending : List DTask
  completions : Nat

/-- Embeds the per-pair loop of __process_category_response (lines 63-70):
for each (url, name) pair the node at the joined structure path is inserted
with that URL, and a follow-up fetch task tagged with level+1 and the
structure path is appended when a next-level extractor exists. -/
def discLoop (plen : Nat) (lvl : Nat) (pth : Option String) :
    List (String × String) → Node → List DTask → Node × List DTask
  | [], tr, acc => (tr, acc)
  | pr :: rest, tr, acc =>
      let spath := joinPath pth pr.2
      let tr2 := addNodeWithPathString tr spath pr.1
      let acc2 := if lvl + 1 < plen then acc ++ [⟨pr.1, lvl + 1, some spath⟩] else acc
      discLoop plen lvl pth rest tr2 acc2

/-- Embeds SiteStructureDiscoverer.__process_category_response. The counter
is decremented on entry, the extractor of the task level is applied, nodes
are inserted and follow-up tasks built pair by pair, the counter is raised by
the number of new tasks before the zero check, and at zero the completion
callback is invoked and its result yielded before the new tasks are yielded.
Extractors are response functions indexed by level; a level with no
configured extractor (never reached from a well-formed start) yields no
pairs. Returns the state without the pending bookkeeping, the list of new
fetch tasks, and the list of yielded values. -/
def processCat {α : Type} (extractors : List (String → List (String × String)))
    (cb : Option (Node → Option α)) (st : DiscSt) (t : DTask) :
    DiscSt × List DTask × List (Option (DOut α)) :=
  let rem1 := st.remaining - 1
  let pairs := (extractors.getD t.level (fun _ => [])) t.url
  let res := discLoop extractors.length t.level t.path pairs st.tree []
  let rem2 := rem1 + res.2.length
  let fired := rem2 == 0
  let completionOut : List (Option (DOut α)) :=
    if fired then
      [match cb with
       | some f => (f res.1).map DOut.cont
       | none => none]
    else []
  ({ remaining := rem2, tree := res.1, pending := st.pending,
     completions := st.completions + (if fired then 1 else 0) },
   res.2,
   completionOut ++ res.2.map (fun r => some (DOut.fetch r)))

/-- Embeds SiteStructureDiscoverer.create_start_request: the pending-work
counter is raised by one and a single fetch task for the start URL is
returned, tagged with category_index 0 and path None. -/
def createStartRequest (startUrl : String) (st : DiscSt) : DiscSt × DTask :=
  ({ st with remaining := st.remaining + 1 }, ⟨startUrl, 0, none⟩)

/-- Discovery run state right after __init__ followed by
create_start_request: counter one, a root-only tree named after the spider,
the start task outstanding, no completion yet. -/
def initDisc (siteName startUrl : String) : DiscSt :=
  let st0 : DiscSt :=
    { remaining := 0, tree := Node.mk siteName none .NEW [], pending := [], completions := 0 }
  let res := createStartRequest startUrl st0
  { res.1 with pending := [res.2] }

/-- One scheduler step of a discovery run: some outstanding fetch, chosen by
the scheduler index, resolves and is processed; the new fetch tasks it
dispatched become outstanding. With nothing outstanding the step is a no-op. -/
def stepDisc {α : Type} (extractors : List (String → List (String × String)))
    (cb : Option (Node → Option α)) (st : DiscSt) (i : Nat) : DiscSt :=
  if st.pending.isEmpty then st
  else
    let j := i % st.pending.length
    let t := st.pending.getD j ⟨"", 0, none⟩
    let res := processCat extractors cb st t
    { res.1 with pending := st.pending.eraseIdx j ++ res.2.1 }

/-- A whole discovery run under an arbitrary scheduler: the schedule lists
which outstanding fetch resolves at each step. -/
def runDisc {α : Type} (extractors : List (String → List (String × String)))
    (cb : Option (Node → Option α)) : DiscSt → List Nat → DiscSt
  | st, [] => st
  | st, i :: is => runDisc extractors cb (stepDisc extractors cb st i) is

/-! ## Traversal coordinator: CategoryBasedSpider -/

/-- Modelled from the spec: one persisted snapshot of the crawl state, the
site structure plus the current-page-url and current-leaf-path cursors. -/
structure Snap where
  tree : Node
  currentPageUrl : Option String
  currentPagePath : Option (List String)

/-- Modelled from the spec: the spider state holder
(CategoryBasedSpiderState): the live fields plus the growing list of
persisted snapshots, one appended per save call. -/
structure CState where
  tree : Node
  currentPageUrl : Option String
  currentPagePath : Option (List String)
  saves : List Snap

/-- Modelled from the spec: save appends a snapshot of the three persisted
fields. -/
def saveState (st : CState) : CState :=
  { st with saves := st.saves ++ [⟨st.tree, st.currentPageUrl, st.currentPagePath⟩] }

/-- A request produced by the spider: either a pagination start request of
the site pager at some URL, or the discovery start request. -/
inductive Req where
  | pagerStart (u : Option String)
  | discovererStart (u : String)
deriving DecidableEq, Repr

/-- Embeds CategoryBasedSpider.__progress_to_next_category: re-run
find_leaf_with_visit_state NEW; when a leaf is found it is set IN_PROGRESS
with propagation, the pager is created at its URL, both cursors are set,
the state is saved, and the pager start request is returned; when none is
found nothing changes and no request is produced. -/
def progressToNext (st : CState) : CState × Option Req :=
  match findLeafPath .NEW st.tree with
  | some p =>
      let t2 := setVisitStateAt st.tree p .IN_PROGRESS true
      let u := (getNodeAtPath t2 p).bind Node.url
      let st2 := saveState { st with tree := t2, currentPageUrl := u, currentPagePath := some p }
      (st2, some (Req.pagerStart u))
  | none => (st, none)

/-- Embeds CategoryBasedSpider.__on_page_finished: only current_page_url is
updated, then the state is saved. -/
def onPageFinished (st : CState) (nextPageUrl : Option String) : CState :=
  saveState { st with currentPageUrl := nextPageUrl }

/-- Embeds CategoryBasedSpider.__on_paging_finished: the node at the
current-leaf-path cursor is set VISITED without propagation, visited-ness is
propagated up its ancestor chain, and the coordinator progresses to the next
category. Returns none where the source would fail: no cursor, or the cursor
path is absent from the tree (NotFound). -/
def onPagingFinished (st : CState) : Option (CState × Option Req) :=
  match st.currentPagePath with
  | none => none
  | some p =>
      match getNodeAtPath st.tree p with
      | none => none
      | some _ => some (progressToNext { st with tree := visitLeafAndPropagate st.tree p })

/-- Embeds CategoryBasedSpider._on_site_structure_discovery_complete: store
the discovered structure, save, then progress to the next category. -/
def onDiscoveryComplete (st : CState) (discovered : Node) : CState × Option Req :=
  progressToNext (saveState { st with tree := discovered })

/-- The spider state before discovery has stored anything; the placeholder
tree is overwritten by onDiscoveryComplete before any read. -/
def freshCState : CState :=
  { tree := Node.mk "" none .NEW [], currentPageUrl := none, currentPagePath := none, saves := [] }

/-- Coordinator state right after discovery completed on the given tree. -/
def initCoord (t0 : Node) : CState :=
  (onDiscoveryComplete freshCState t0).1

/-- An external stimulus of the coordinator: the pager reports a finished
page carrying the next page URL (or the no-next-page sentinel), or the pager
reports that paging over the current leaf is finished. -/
inductive CEvent where
  | pageFin (u : Option String)
  | pagingFin

/-- One coordinator step per pager callback. -/
def stepCoord (st : CState) : CEvent → Option CState
  | .pageFin u => some (onPageFinished st u)
  | .pagingFin => (onPagingFinished st).map Prod.fst

/-- A run of the coordinator over a list of pager callbacks; none when some
step fails (corrupted cursor). -/
def runCoord : CState → List CEvent → Option CState
  | st, [] => some st
  | st, e :: es => (stepCoord st e).bind (fun st2 => runCoord st2 es)

/-! ## Spider construction and start_requests -/

/-- Embeds CategoryBasedSpider.start_requests: with a loaded persisted state
the single start request is a pager start request built directly at the
persisted current_page_url; otherwise it is the discovery start request for
the start URL. -/
def startRequests (loaded : Option Snap) (startUrl : String) : Req :=
  match loaded with
  | some ps => .pagerStart ps.currentPageUrl
  | none => .discovererStart startUrl

/-- Python truthiness of an optional string attribute: None and the empty
string are falsy. -/
def pyTruthy : Option String → Bool
  | none => false
  | some s => !s.isEmpty

/-- Outcome of CategoryBasedSpider.__init__: either a ValueError with its
message or the resolved start URL the constructed spider will use. -/
inductive InitResult where
  | valueError (msg : String)
  | ok (resolvedStartUrl : String)
deriving DecidableEq, Repr

/-- Embeds the validation in CategoryBasedSpider.__init__ (lines 18-23):
a None category_selectors argument raises ValueError; then a non-None
start_url argument is taken as the start URL, else a truthy class attribute
start_url is taken, else ValueError. The selectors argument is kept as an
Option to distinguish passing None from passing a list; an empty list is a
value distinct from None. -/
def spiderInit (categorySelectors : Option (List Unit)) (startUrlArg : Option String)
    (classStartUrl : Option String) : InitResult :=
  match categorySelectors with
  | none => .valueError "must have category selectors"
  | some _ =>
      match startUrlArg with
      | some u => .ok u
      | none =>
          if pyTruthy classStartUrl then .ok (classStartUrl.getD "")
          else .valueError "must have start URL"

/-! ## Lemmas about children lookup and replacement -/

theorem getChild_replace (seg a : String) (f : Node → Node)
    (hf : ∀ c, (f c).name = c.name) :
    ∀ cs : List Node, getChild (replaceChild cs seg f) a =
      if a = seg then (getChild cs seg).map f else getChild cs a := by
  intro cs
  induction cs with
  | nil => simp [replaceChild, getChild]
  | cons c cs ih =>
    by_cases ha : a = seg
    · subst ha
      by_cases hc : c.name = a
      · simp [replaceChild, getChild, hc, hf c]
      · simp only [replaceChild, getChild]
        simp only [if_neg (show ¬((c.name == a) = true) by simp [hc])]
        simp only [getChild, if_neg (show ¬((c.name == a) = true) by simp [hc])]
        simp at ih
        exact ih
    · by_cases hc : c.name = seg
      · simp [replaceChild, getChild, hc, hf c, Ne.symm ha, ha]
      · by_cases hca : c.name = a
        · simp [replaceChild, getChild, hc, hca, ha]
        · simp [replaceChild, getChild, hc, hca, ha, ih]

theorem mem_of_getChild {cs : List Node} {seg : String} {c : Node}
    (h : getChild cs seg = some c) : c ∈ cs := by
  induction cs with
  | nil => simp [getChild] at h
  | cons d cs ih =>
    by_cases hd : d.name = seg
    · simp [getChild, hd] at h
      exact h ▸ List.mem_cons_self d cs
    · simp [getChild, hd] at h
      exact List.mem_cons_of_mem d (ih h)

theorem name_of_getChild {cs : List Node} {seg : String} {c : Node}
    (h : getChild cs seg = some c) : c.name = seg := by
  induction cs with
  | nil => simp [getChild] at h
  | cons d cs ih =>
    by_cases hd : d.name = seg
    · simp [getChild, hd] at h
      exact h ▸ hd
    · simp [getChild, hd] at h
      exact ih h

theorem names_replace (seg : String) (f : Node → Node)
    (hf : ∀ c, (f c).name = c.name) :
    ∀ cs : List Node, (replaceChild cs seg f).map Node.name = cs.map Node.name := by
  intro cs
  induction cs with
  | nil => rfl
  | cons c cs ih =>
    by_cases hc : c.name = seg
    · simp [replaceChild, hc, hf c]
    · simp [replaceChild, hc, ih]

/-! ## Lemmas about path lookup -/

theorem getNodeAtPath_append (q r : List String) :
    ∀ t : Node, getNodeAtPath t (q ++ r) = (getNodeAtPath t q).bind (fun n => getNodeAtPath n r) := by
  induction q with
  | nil => intro t; simp [getNodeAtPath]
  | cons seg rest ih =>
    intro t
    simp only [List.cons_append, getNodeAtPath]
    cases getChild t.children seg with
    | none => simp
    | some c => simp [ih c]

theorem isSome_getNodeAtPath_take {t : Node} {p : List String} {k : Nat}
    (h : (getNodeAtPath t p).isSome = true) :
    (getNodeAtPath t (p.take k)).isSome = true := by
  have hsplit : p.take k ++ p.drop k = p := List.take_append_drop k p
  rw [← hsplit, getNodeAtPath_append] at h
  cases hg : getNodeAtPath t (p.take k) with
  | none => rw [hg] at h; simp at h
  | some m => simp

/-! ## Lemmas about path leads -/

theorem isLead_refl : ∀ p : List String, isLead p p = true := by
  intro p
  induction p with
  | nil => rfl
  | cons a as ih => simp [isLead, ih]

theorem isLead_of_isStrictLead : ∀ r q : List String, isStrictLead r q = true → isLead r q = true := by
  intro r
  induction r with
  | nil => intro q _; rfl
  | cons a as ih =>
    intro q h
    cases q with
    | nil => simp [isStrictLead] at h
    | cons b bs =>
      simp [isStrictLead] at h
      simp [isLead, h.1, ih bs h.2]

theorem isStrictLead_append_one (x : String) :
    ∀ r q : List String, isLead r q = true → isStrictLead r (q ++ [x]) = true := by
  intro r
  induction r with
  | nil =>
    intro q _
    cases q <;> rfl
  | cons a as ih =>
    intro q h
    cases q with
    | nil => simp [isLead] at h
    | cons b bs =>
      simp [isLead] at h
      simp [isStrictLead, h.1, ih bs h.2]

/-! ## Lemmas about setVisitStateAt -/

theorem setAll_name (s : VisitState) (n : Node) : (setAll s n).name = n.name := by
  cases n; rfl

theorem withState_name (s : VisitState) (n : Node) : (n.withState s).name = n.name := by
  cases n; rfl

theorem withState_children (s : VisitState) (n : Node) : (n.withState s).children = n.children := by
  cases n; rfl

theorem withState_url (s : VisitState) (n : Node) : (n.withState s).url = n.url := by
  cases n; rfl

theorem withState_state (s : VisitState) (n : Node) : (n.withState s).visit_state = s := by
  cases n; rfl

theorem setVisit_name (s : VisitState) (b : Bool) :
    ∀ (p : List String) (c : Node), (setVisitStateAt c p s b).name = c.name := by
  intro p c
  cases p with
  | nil =>
    cases b with
    | true => simp [setVisitStateAt, setAll_name]
    | false => simp [setVisitStateAt, withState_name]
  | cons seg rest => rfl

theorem setAll_leaf (s : VisitState) (n : Node) (h : n.children = []) :
    setAll s n = n.withState s := by
  cases n with
  | mk nm u vs cs =>
    simp [Node.children] at h
    simp [setAll, h, setAllL, Node.withState]

theorem setVisit_state_cases (s : VisitState) :
    ∀ (p : List String) (c : Node),
      (setVisitStateAt c p s false).visit_state = c.visit_state ∨
      (setVisitStateAt c p s false).visit_state = s := by
  intro p c
  cases p with
  | nil => right; simp [setVisitStateAt, withState_state]
  | cons seg rest => left; rfl

theorem get_setVisit_self (s : VisitState) :
    ∀ (p : List String) (t : Node),
      getNodeAtPath (setVisitStateAt t p s false) p = (getNodeAtPath t p).map (Node.withState s) := by
  intro p
  induction p with
  | nil => intro t; simp [setVisitStateAt, getNodeAtPath]
  | cons seg rest ih =>
    intro t
    cases t with
    | mk nm u vs cs =>
      simp only [setVisitStateAt, getNodeAtPath, Node.children]
      rw [getChild_replace seg seg _ (fun c => setVisit_name s false rest c)]
      simp only [if_pos rfl]
      cases hg : getChild cs seg with
      | none => simp
      | some c => simp [ih c]

theorem get_setVisit_other (s : VisitState) :
    ∀ (p r : List String) (t : Node), isLead r p = false →
      getNodeAtPath (setVisitStateAt t p s false) r = getNodeAtPath t r := by
  intro p
  induction p with
  | nil =>
    intro r t h
    cases r with
    | nil => simp [isLead] at h
    | cons a as =>
      cases t with
      | mk nm u vs cs =>
        simp [setVisitStateAt, getNodeAtPath, Node.withState, Node.children]
  | cons seg rest ih =>
    intro r t h
    cases r with
    | nil => simp [isLead] at h
    | cons a as =>
      cases t with
      | mk nm u vs cs =>
        simp only [setVisitStateAt, getNodeAtPath, Node.children]
        rw [getChild_replace seg a _ (fun c => setVisit_name s false rest c)]
        by_cases ha : a = seg
        · subst ha
          simp only [if_pos rfl]
          have hlead : isLead as rest = false := by
            simp [isLead] at h
            exact h
          cases hg : getChild cs a with
          | none => simp
          | some c => simp [ih as c hlead]
        · simp [ha]

theorem isSome_get_setVisit (s : VisitState) :
    ∀ (p r : List String) (t : Node),
      (getNodeAtPath (setVisitStateAt t p s false) r).isSome = (getNodeAtPath t r).isSome := by
  intro p
  induction p with
  | nil =>
    intro r t
    cases r with
    | nil => simp [getNodeAtPath]
    | cons a as =>
      cases t with
      | mk nm u vs cs => simp [setVisitStateAt, getNodeAtPath, Node.withState, Node.children]
  | cons seg rest ih =>
    intro r t
    cases r with
    | nil => simp [getNodeAtPath]
    | cons a as =>
      cases t with
      | mk nm u vs cs =>
        simp only [setVisitStateAt, getNodeAtPath, Node.children]
        rw [getChild_replace seg a _ (fun c => setVisit_name s false rest c)]
        by_cases ha : a = seg
        · subst ha
          simp only [if_pos rfl]
          cases hg : getChild cs a with
          | none => simp
          | some c => simp [ih as c]
        · simp [ha]

theorem replace_nochild (seg : String) (f : Node → Node) :
    ∀ cs : List Node, getChild cs seg = none → replaceChild cs seg f = cs := by
  intro cs
  induction cs with
  | nil => intro _; rfl
  | cons c cs ih =>
    intro h
    by_cases hc : c.name = seg
    · simp [getChild, hc] at h
    · simp [getChild, hc] at h
      simp [replaceChild, hc, ih h]

theorem replace_id_at (seg : String) (f : Node → Node) :
    ∀ (cs : List Node) (c : Node), getChild cs seg = some c → f c = c →
      replaceChild cs seg f = cs := by
  intro cs
  induction cs with
  | nil => intro c h; simp [getChild] at h
  | cons d cs ih =>
    intro c h hf
    by_cases hd : d.name = seg
    · simp [getChild, hd] at h
      subst h
      simp [replaceChild, hd, hf]
    · simp [getChild, hd] at h
      simp [replaceChild, hd, ih c h hf]

theorem replace_congr (seg : String) (f1 f2 : Node → Node) :
    ∀ (cs : List Node) (c : Node), getChild cs seg = some c → f1 c = f2 c →
      replaceChild cs seg f1 = replaceChild cs seg f2 := by
  intro cs
  induction cs with
  | nil => intro c h; simp [getChild] at h
  | cons d cs ih =>
    intro c h hf
    by_cases hd : d.name = seg
    · simp [getChild, hd] at h
      subst h
      simp [replaceChild, hd, hf]
    · simp [getChild, hd] at h
      simp [replaceChild, hd, ih c h hf]

theorem setVisit_nop (s : VisitState) :
    ∀ (p : List String) (t : Node), getNodeAtPath t p = none →
      setVisitStateAt t p s false = t := by
  intro p
  induction p with
  | nil => intro t h; simp [getNodeAtPath] at h
  | cons seg rest ih =>
    intro t h
    cases t with
    | mk nm u vs cs =>
      simp only [getNodeAtPath, Node.children] at h
      cases hg : getChild cs seg with
      | none =>
        simp only [setVisitStateAt, Node.children, Node.name, Node.url, Node.visit_state]
        rw [replace_nochild seg _ cs hg]
      | some c =>
        rw [hg] at h
        simp only [Option.some_bind] at h
        simp only [setVisitStateAt, Node.children, Node.name, Node.url, Node.visit_state]
        rw [replace_id_at seg _ cs c hg (ih c h)]

theorem setVisit_true_leaf (s : VisitState) :
    ∀ (p : List String) (t n : Node), getNodeAtPath t p = some n → n.children = [] →
      setVisitStateAt t p s true = setVisitStateAt t p s false := by
  intro p
  induction p with
  | nil =>
    intro t n h hl
    simp [getNodeAtPath] at h
    subst h
    simp [setVisitStateAt, setAll_leaf s t hl]
  | cons seg rest ih =>
    intro t n h hl
    cases t with
    | mk nm u vs cs =>
      simp only [getNodeAtPath, Node.children] at h
      cases hg : getChild cs seg with
      | none => rw [hg] at h; simp at h
      | some c =>
        rw [hg] at h
        simp only [Option.some_bind] at h
        simp only [setVisitStateAt, Node.children, Node.name, Node.url, Node.visit_state]
        rw [replace_congr seg (fun c => setVisitStateAt c rest s true)
          (fun c => setVisitStateAt c rest s false) cs c hg (ih c n h hl)]

/-! ## Lemmas about consistency and fully visited subtrees -/

theorem consistentL_mem : ∀ cs : List Node, consistentL cs = true → ∀ c ∈ cs, consistent c = true := by
  intro cs
  induction cs with
  | nil => intro _ c hc; simp at hc
  | cons d cs ih =>
    intro h c hc
    simp [consistentL, Bool.and_eq_true] at h
    rcases List.mem_cons.mp hc with h1 | h2
    · exact h1 ▸ h.1
    · exact ih h.2 c h2

theorem consistent_parts (nm : String) (u : Option String) (st : VisitState) (cs : List Node)
    (h : consistent (.mk nm u st cs) = true) :
    (st = .VISITED → cs.all (fun c => c.visit_state == .VISITED) = true) ∧ consistentL cs = true := by
  simp only [consistent, Bool.and_eq_true, Bool.or_eq_true, Bool.not_eq_true'] at h
  refine ⟨fun hv => ?_, h.2⟩
  rcases h.1 with h1 | h1
  · subst hv; simp at h1
  · exact h1

theorem consistent_node (n : Node) (h : consistent n = true) (hv : n.visit_state = .VISITED) :
    childrenVisited n = true := by
  cases n with
  | mk nm u st cs =>
    simp only [Node.visit_state] at hv
    subst hv
    simpa [childrenVisited, Node.children] using (consistent_parts nm u _ cs h).1 rfl

theorem consistent_getPath : ∀ (r : List String) (t m : Node),
    consistent t = true → getNodeAtPath t r = some m → consistent m = true := by
  intro r
  induction r with
  | nil => intro t m h hg; simp [getNodeAtPath] at hg; exact hg ▸ h
  | cons seg rest ih =>
    intro t m h hg
    cases t with
    | mk nm u st cs =>
      simp only [getNodeAtPath, Node.children] at hg
      cases hc : getChild cs seg with
      | none => rw [hc] at hg; simp at hg
      | some c =>
        rw [hc] at hg
        simp only [Option.some_bind] at hg
        exact ih c m (consistentL_mem cs (consistent_parts nm u st cs h).2 c (mem_of_getChild hc)) hg

mutual
theorem subtree_of_consistent : ∀ n : Node, consistent n = true → n.visit_state = .VISITED →
    subtreeVisited n = true
  | .mk nm u st cs, h, hv => by
    simp only [Node.visit_state] at hv
    subst hv
    simp only [subtreeVisited, Bool.and_eq_true, beq_self_eq_true, true_and]
    exact subtree_of_consistentL cs (consistent_parts nm u _ cs h).2 ((consistent_parts nm u _ cs h).1 rfl)

theorem subtree_of_consistentL : ∀ cs : List Node, consistentL cs = true →
    cs.all (fun c => c.visit_state == .VISITED) = true → subtreeVisitedL cs = true
  | [], _, _ => rfl
  | c :: cs, h, ha => by
    simp only [consistentL, Bool.and_eq_true] at h
    simp only [List.all_cons, Bool.and_eq_true, beq_iff_eq] at ha
    simp only [subtreeVisitedL, Bool.and_eq_true]
    exact ⟨subtree_of_consistent c h.1 ha.1, subtree_of_consistentL cs h.2 (by simp [List.all_eq_true, ha.2])⟩
end

theorem subtreeL_mem : ∀ cs : List Node, subtreeVisitedL cs = true → ∀ c ∈ cs, subtreeVisited c = true := by
  intro cs
  induction cs with
  | nil => intro _ c hc; simp at hc
  | cons d cs ih =>
    intro h c hc
    simp only [subtreeVisitedL, Bool.and_eq_true] at h
    rcases List.mem_cons.mp hc with h1 | h2
    · exact h1 ▸ h.1
    · exact ih h.2 c h2

theorem subtree_state (n : Node) (h : subtreeVisited n = true) : n.visit_state = .VISITED := by
  cases n with
  | mk nm u st cs =>
    simp only [subtreeVisited, Bool.and_eq_true, beq_iff_eq] at h
    simpa [Node.visit_state] using h.1

theorem subtree_childrenVisited (n : Node) (h : subtreeVisited n = true) : childrenVisited n = true := by
  cases n with
  | mk nm u st cs =>
    simp only [subtreeVisited, Bool.and_eq_true] at h
    simp only [childrenVisited, Node.children, List.all_eq_true, beq_iff_eq]
    intro c hc
    exact subtree_state c (subtreeL_mem cs h.2 c hc)

theorem subtree_getPath : ∀ (r : List String) (n m : Node),
    subtreeVisited n = true → getNodeAtPath n r = some m → subtreeVisited m = true := by
  intro r
  induction r with
  | nil => intro n m h hg; simp [getNodeAtPath] at hg; exact hg ▸ h
  | cons seg rest ih =>
    intro n m h hg
    cases n with
    | mk nm u st cs =>
      simp only [getNodeAtPath, Node.children] at hg
      cases hc : getChild cs seg with
      | none => rw [hc] at hg; simp at hg
      | some c =>
        rw [hc] at hg
        simp only [Option.some_bind] at hg
        have hs : subtreeVisitedL cs = true := by
          simp only [subtreeVisited, Bool.and_eq_true] at h
          exact h.2
        exact ih c m (subtreeL_mem cs hs c (mem_of_getChild hc)) hg

theorem allVisited_replace (seg : String) (f : Node → Node)
    (hf : ∀ c, (f c).visit_state = c.visit_state ∨ (f c).visit_state = .VISITED) :
    ∀ cs : List Node, cs.all (fun c => c.visit_state == .VISITED) = true →
      (replaceChild cs seg f).all (fun c => c.visit_state == .VISITED) = true := by
  intro cs
  induction cs with
  | nil => intro _; rfl
  | cons c cs ih =>
    intro h
    simp only [List.all_cons, Bool.and_eq_true, beq_iff_eq] at h
    by_cases hc : c.name = seg
    · simp only [replaceChild, if_pos (show (c.name == seg) = true by simp [hc])]
      simp only [List.all_cons, Bool.and_eq_true, beq_iff_eq]
      refine ⟨?_, by simp [List.all_eq_true, h.2]⟩
      rcases hf c with h1 | h1
      · rw [h1, h.1]
      · exact h1
    · simp only [replaceChild, if_neg (show ¬((c.name == seg) = true) by simp [hc])]
      simp only [List.all_cons, Bool.and_eq_true, beq_iff_eq]
      exact ⟨h.1, by simpa [List.all_eq_true] using ih (by simp [List.all_eq_true, h.2])⟩

theorem consistentL_replace (seg : String) (f : Node → Node) :
    ∀ cs : List Node, consistentL cs = true →
      (∀ c, getChild cs seg = some c → consistent (f c) = true) →
      consistentL (replaceChild cs seg f) = true := by
  intro cs
  induction cs with
  | nil => intro _ _; rfl
  | cons c cs ih =>
    intro h hc
    simp only [consistentL, Bool.and_eq_true] at h
    by_cases hn : c.name = seg
    · simp only [replaceChild, if_pos (show (c.name == seg) = true by simp [hn])]
      simp only [consistentL, Bool.and_eq_true]
      exact ⟨hc c (by simp [getChild, hn]), h.2⟩
    · simp only [replaceChild, if_neg (show ¬((c.name == seg) = true) by simp [hn])]
      simp only [consistentL, Bool.and_eq_true]
      refine ⟨h.1, ih h.2 (fun d hd => hc d ?_)⟩
      simp [getChild, hn, hd]

theorem consistent_setVisited : ∀ (p : List String) (t n : Node),
    consistent t = true → getNodeAtPath t p = some n → childrenVisited n = true →
    consistent (setVisitStateAt t p .VISITED false) = true := by
  intro p
  induction p with
  | nil =>
    intro t n h hg hv
    simp only [getNodeAtPath] at hg
    cases hg
    cases t with
    | mk nm u st cs =>
      have hred : setVisitStateAt (Node.mk nm u st cs) [] .VISITED false = Node.mk nm u .VISITED cs := rfl
      rw [hred]
      simp only [consistent, Bool.and_eq_true, Bool.or_eq_true]
      constructor
      · right
        simpa [childrenVisited, Node.children] using hv
      · exact (consistent_parts nm u st cs h).2
  | cons seg rest ih =>
    intro t n h hg hv
    cases t with
    | mk nm u st cs =>
      simp only [getNodeAtPath, Node.children] at hg
      cases hc : getChild cs seg with
      | none => rw [hc] at hg; simp at hg
      | some c =>
        rw [hc] at hg
        simp only [Option.some_bind] at hg
        simp only [setVisitStateAt, Node.children, Node.name, Node.url, Node.visit_state]
        simp only [consistent, Bool.and_eq_true, Bool.or_eq_true, Bool.not_eq_true']
        constructor
        · by_cases hs : st = .VISITED
          · right
            exact allVisited_replace seg _ (fun c => setVisit_state_cases .VISITED rest c) cs
              ((consistent_parts nm u st cs h).1 hs)
          · left
            simp [hs]
        · refine consistentL_replace seg _ cs (consistent_parts nm u st cs h).2 (fun d hd => ?_)
          rw [hc] at hd
          cases hd
          exact ih c n (consistentL_mem cs (consistent_parts nm u st cs h).2 c (mem_of_getChild hc)) hg hv

/-! ## Lemmas about upward propagation -/

theorem isStrictLead_irrefl : ∀ p : List String, isStrictLead p p = false := by
  intro p
  induction p with
  | nil => rfl
  | cons a as ih => simp [isStrictLead, ih]

theorem childrenVisited_withState (s : VisitState) (n : Node) :
    childrenVisited (n.withState s) = childrenVisited n := by
  cases n; rfl

theorem childrenVisited_leaf (n : Node) (h : n.children = []) : childrenVisited n = true := by
  simp [childrenVisited, h]

theorem getChild_ne_nil {cs : List Node} {seg : String} {c : Node}
    (h : getChild cs seg = some c) : cs ≠ [] := by
  intro he
  subst he
  simp [getChild] at h

theorem propagateUpR_cons (x : String) (rrest : List String) (t : Node) :
    propagateUpR t (x :: rrest) =
      match getNodeAtPath t rrest.reverse with
      | some pn =>
          if childrenVisited pn then propagateUpR (setVisitStateAt t rrest.reverse .VISITED false) rrest
          else t
      | none => t := rfl

theorem propagateUpR_step_true (x : String) (rrest : List String) (t pn : Node)
    (hg : getNodeAtPath t rrest.reverse = some pn) (hcv : childrenVisited pn = true) :
    propagateUpR t (x :: rrest) = propagateUpR (setVisitStateAt t rrest.reverse .VISITED false) rrest := by
  rw [propagateUpR_cons, hg]
  simp [hcv]

theorem propagateUpR_step_false (x : String) (rrest : List String) (t pn : Node)
    (hg : getNodeAtPath t rrest.reverse = some pn) (hcv : childrenVisited pn = false) :
    propagateUpR t (x :: rrest) = t := by
  rw [propagateUpR_cons, hg]
  simp [hcv]

theorem prop_frame : ∀ (rq : List String) (t : Node) (r : List String),
    isStrictLead r rq.reverse = false →
    getNodeAtPath (propagateUpR t rq) r = getNodeAtPath t r := by
  intro rq
  induction rq with
  | nil => intro t r _; rfl
  | cons x rrest ih =>
    intro t r h
    rw [List.reverse_cons] at h
    rw [propagateUpR_cons]
    cases hg : getNodeAtPath t rrest.reverse with
    | none => rfl
    | some pn =>
      by_cases hcv : childrenVisited pn = true
      · simp only [hcv, if_true]
        have hr1 : isLead r rrest.reverse = false := by
          cases hl : isLead r rrest.reverse with
          | false => rfl
          | true =>
            rw [isStrictLead_append_one x r rrest.reverse hl] at h
            simp at h
        have hr2 : isStrictLead r rrest.reverse = false := by
          cases hs : isStrictLead r rrest.reverse with
          | false => rfl
          | true => rw [isLead_of_isStrictLead r rrest.reverse hs] at hr1; simp at hr1
        rw [ih (setVisitStateAt t rrest.reverse .VISITED false) r hr2]
        exact get_setVisit_other .VISITED rrest.reverse r t hr1
      · simp [hcv]

theorem prop_isSome : ∀ (rq : List String) (t : Node) (r : List String),
    (getNodeAtPath (propagateUpR t rq) r).isSome = (getNodeAtPath t r).isSome := by
  intro rq
  induction rq with
  | nil => intro t r; rfl
  | cons x rrest ih =>
    intro t r
    rw [propagateUpR_cons]
    cases hg : getNodeAtPath t rrest.reverse with
    | none => rfl
    | some pn =>
      by_cases hcv : childrenVisited pn = true
      · simp only [hcv, if_true]
        rw [ih (setVisitStateAt t rrest.reverse .VISITED false) r]
        exact isSome_get_setVisit .VISITED rrest.reverse r t
      · simp [hcv]

theorem consistent_prop : ∀ (rq : List String) (t : Node),
    consistent t = true → consistent (propagateUpR t rq) = true := by
  intro rq
  induction rq with
  | nil => intro t h; exact h
  | cons x rrest ih =>
    intro t h
    rw [propagateUpR_cons]
    cases hg : getNodeAtPath t rrest.reverse with
    | none => exact h
    | some pn =>
      by_cases hcv : childrenVisited pn = true
      · simp only [hcv, if_true]
        exact ih _ (consistent_setVisited rrest.reverse t pn h hg hcv)
      · simp [hcv, h]

/-- Characterization of the ancestor chain after the upward propagation walk:
starting at a valid path of a consistent tree, each strict ancestor of the
walk origin ends VISITED exactly when all of its children end VISITED. -/
theorem propagate_chain : ∀ (rq : List String) (t : Node),
    consistent t = true →
    (getNodeAtPath t rq.reverse).isSome = true →
    ∀ k, k < rq.length →
      (visitAt (propagateUpR t rq) (rq.reverse.take k) = some .VISITED ↔
       childrenVisitedAt (propagateUpR t rq) (rq.reverse.take k) = some true) := by
  intro rq
  induction rq with
  | nil => intro t _ _ k hk; simp at hk
  | cons x rrest ih =>
    intro t hc hval k hk
    rw [List.reverse_cons]
    rw [List.reverse_cons, getNodeAtPath_append] at hval
    have hpar : rrest.reverse.length = rrest.length := List.length_reverse rrest
    simp only [List.length_cons] at hk
    cases hg : getNodeAtPath t rrest.reverse with
    | none => rw [hg] at hval; simp at hval
    | some pn =>
      cases hcvb : childrenVisited pn with
      | true =>
        rw [propagateUpR_step_true x rrest t pn hg hcvb]
        by_cases hkl : k < rrest.length
        · have htake : (rrest.reverse ++ [x]).take k = rrest.reverse.take k := by
            exact List.take_append_of_le_length (by omega)
          rw [htake]
          refine ih (setVisitStateAt t rrest.reverse .VISITED false)
            (consistent_setVisited rrest.reverse t pn hc hg hcvb) ?_ k (by omega)
          rw [get_setVisit_self .VISITED rrest.reverse t, hg]
          rfl
        · have hkeq : k = rrest.length := by omega
          have htake : (rrest.reverse ++ [x]).take k = rrest.reverse := by
            rw [hkeq, ← hpar]
            exact List.take_left rrest.reverse [x]
          rw [htake]
          have hfr : getNodeAtPath (propagateUpR (setVisitStateAt t rrest.reverse .VISITED false) rrest)
              rrest.reverse = getNodeAtPath (setVisitStateAt t rrest.reverse .VISITED false) rrest.reverse :=
            prop_frame rrest _ rrest.reverse (isStrictLead_irrefl rrest.reverse)
          have hself : getNodeAtPath (setVisitStateAt t rrest.reverse .VISITED false) rrest.reverse =
              some (pn.withState .VISITED) := by
            rw [get_setVisit_self .VISITED rrest.reverse t, hg]
            rfl
          constructor
          · intro _
            simp [childrenVisitedAt, hfr, hself, childrenVisited_withState, hcvb]
          · intro _
            simp [visitAt, hfr, hself, withState_state]
      | false =>
        rw [propagateUpR_step_false x rrest t pn hg hcvb]
        by_cases hkl : k < rrest.length
        · have htake : (rrest.reverse ++ [x]).take k = rrest.reverse.take k := by
            exact List.take_append_of_le_length (by omega)
          rw [htake]
          have hAv : (getNodeAtPath t (rrest.reverse.take k)).isSome = true :=
            isSome_getNodeAtPath_take (by simp [hg])
          cases hm : getNodeAtPath t (rrest.reverse.take k) with
          | none => rw [hm] at hAv; simp at hAv
          | some m =>
            have hsplit : rrest.reverse.take k ++ rrest.reverse.drop k = rrest.reverse :=
              List.take_append_drop k rrest.reverse
            have hdropne : rrest.reverse.drop k ≠ [] := by
              rw [ne_eq, List.drop_eq_nil_iff]
              omega
            cases hdk : rrest.reverse.drop k with
            | nil => exact absurd hdk hdropne
            | cons seg rest2 =>
              have hmp : getNodeAtPath m (seg :: rest2) = some pn := by
                have h2 := hg
                rw [← hsplit, getNodeAtPath_append, hm, hdk] at h2
                simpa using h2
              have hchild : ∃ c, getChild m.children seg = some c ∧ getNodeAtPath c rest2 = some pn := by
                simp only [getNodeAtPath] at hmp
                cases hgc : getChild m.children seg with
                | none => rw [hgc] at hmp; simp at hmp
                | some c =>
                  rw [hgc] at hmp
                  simp only [Option.some_bind] at hmp
                  exact ⟨c, rfl, hmp⟩
              obtain ⟨c, hgc, hcp⟩ := hchild
              have hrhs : childrenVisited m = false := by
                cases hcm : childrenVisited m with
                | false => rfl
                | true =>
                  exfalso
                  have h3 : ∀ d ∈ m.children, d.visit_state = .VISITED := by
                    simpa [childrenVisited, List.all_eq_true] using hcm
                  have hcV : c.visit_state = .VISITED := h3 c (mem_of_getChild hgc)
                  have hconsc : consistent c = true := by
                    refine consistent_getPath (rrest.reverse.take k ++ [seg]) t c hc ?_
                    rw [getNodeAtPath_append, hm]
                    simp [getNodeAtPath, hgc]
                  have hsub : subtreeVisited pn = true :=
                    subtree_getPath rest2 c pn (subtree_of_consistent c hconsc hcV) hcp
                  have h5 := subtree_childrenVisited pn hsub
                  rw [hcvb] at h5
                  exact Bool.noConfusion h5
              constructor
              · intro hlhs
                exfalso
                simp only [visitAt, hm] at hlhs
                have hmV : m.visit_state = .VISITED := by simpa using hlhs
                have h4 := consistent_node m (consistent_getPath (rrest.reverse.take k) t m hc hm) hmV
                rw [hrhs] at h4
                exact Bool.noConfusion h4
              · intro hrhs2
                exfalso
                simp only [childrenVisitedAt, hm] at hrhs2
                have h6 : childrenVisited m = true := by simpa using hrhs2
                rw [hrhs] at h6
                exact Bool.noConfusion h6
        · have hkeq : k = rrest.length := by omega
          have htake : (rrest.reverse ++ [x]).take k = rrest.reverse := by
            rw [hkeq, ← hpar]
            exact List.take_left rrest.reverse [x]
          rw [htake]
          constructor
          · intro hlhs
            exfalso
            simp only [visitAt, hg] at hlhs
            have hmV : pn.visit_state = .VISITED := by simpa using hlhs
            have h4 := consistent_node pn (consistent_getPath rrest.reverse t pn hc hg) hmV
            rw [hcvb] at h4
            exact Bool.noConfusion h4
          · intro hr
            exfalso
            simp only [childrenVisitedAt, hg] at hr
            have h6 : childrenVisited pn = true := by simpa using hr
            rw [hcvb] at h6
            exact Bool.noConfusion h6

/-! ## Claim C2 -/

theorem lead_or_strict (r p : List String) (hr : isLead r p = false) : isStrictLead r p = false := by
  cases hs : isStrictLead r p with
  | false => rfl
  | true => rw [isLead_of_isStrictLead r p hs] at hr; simp at hr

/-- Claim C2: after the paging-finished handler marks the leaf at path p
VISITED and propagates, (1) the leaf is VISITED; (2) every strict ancestor of
the leaf is VISITED exactly when all of its children are VISITED; (3) any
node whose path is not a lead of p is untouched, so no other node, in
particular no other leaf, ever becomes VISITED through this handler; (4)
every strict ancestor of the leaf is a non-leaf node. Hypotheses: the tree is
consistent (reachable trees are) and p addresses a leaf. -/
theorem c2_visited_propagation (t : Node) (p : List String) (lf : Node)
    (hc : consistent t = true)
    (hg : getNodeAtPath t p = some lf)
    (hl : lf.children = []) :
    visitAt (visitLeafAndPropagate t p) p = some .VISITED
    ∧ (∀ k, k < p.length →
        (visitAt (visitLeafAndPropagate t p) (p.take k) = some .VISITED ↔
         childrenVisitedAt (visitLeafAndPropagate t p) (p.take k) = some true))
    ∧ (∀ r, isLead r p = false →
        getNodeAtPath (visitLeafAndPropagate t p) r = getNodeAtPath t r)
    ∧ (∀ k, k < p.length → ∃ m, getNodeAtPath (visitLeafAndPropagate t p) (p.take k) = some m
        ∧ m.children ≠ []) := by
  have hrev : p.reverse.reverse = p := List.reverse_reverse p
  have hself1 : getNodeAtPath (setVisitStateAt t p .VISITED false) p = some (lf.withState .VISITED) := by
    rw [get_setVisit_self .VISITED p t, hg]
    rfl
  have hc1 : consistent (setVisitStateAt t p .VISITED false) = true :=
    consistent_setVisited p t lf hc hg (childrenVisited_leaf lf hl)
  have hval1 : (getNodeAtPath (setVisitStateAt t p .VISITED false) p.reverse.reverse).isSome = true := by
    rw [hrev, hself1]
    rfl
  have hfr : getNodeAtPath (propagateUpR (setVisitStateAt t p .VISITED false) p.reverse) p =
      getNodeAtPath (setVisitStateAt t p .VISITED false) p := by
    refine prop_frame p.reverse _ p ?_
    rw [hrev]
    exact isStrictLead_irrefl p
  have hfin : getNodeAtPath (visitLeafAndPropagate t p) p = some (lf.withState .VISITED) := by
    rw [visitLeafAndPropagate, hfr, hself1]
  refine ⟨?_, ?_, ?_, ?_⟩
  · simp [visitAt, hfin, withState_state]
  · intro k hk
    have h2 := propagate_chain p.reverse (setVisitStateAt t p .VISITED false) hc1 hval1 k
      (by rw [List.length_reverse]; exact hk)
    rw [hrev] at h2
    exact h2
  · intro r hr
    rw [visitLeafAndPropagate]
    rw [prop_frame p.reverse _ r (by rw [hrev]; exact lead_or_strict r p hr)]
    exact get_setVisit_other .VISITED p r t hr
  · intro k hk
    have hvs : (getNodeAtPath (visitLeafAndPropagate t p) p).isSome = true := by
      rw [hfin]; rfl
    have htk := isSome_getNodeAtPath_take (k := k) hvs
    cases hm : getNodeAtPath (visitLeafAndPropagate t p) (p.take k) with
    | none => rw [hm] at htk; simp at htk
    | some m =>
      refine ⟨m, rfl, ?_⟩
      have hdec : p.take k ++ p.drop k = p := List.take_append_drop k p
      have hfin2 : getNodeAtPath (visitLeafAndPropagate t p) (p.take k ++ p.drop k) =
          some (lf.withState .VISITED) := by rw [hdec]; exact hfin
      rw [getNodeAtPath_append, hm] at hfin2
      simp only [Option.some_bind] at hfin2
      have hdropne : p.drop k ≠ [] := by
        rw [ne_eq, List.drop_eq_nil_iff]
        omega
      cases hdk : p.drop k with
      | nil => exact absurd hdk hdropne
      | cons seg r2 =>
        rw [hdk] at hfin2
        simp only [getNodeAtPath] at hfin2
        cases hgc : getChild m.children seg with
        | none => rw [hgc] at hfin2; simp at hfin2
        | some c => exact getChild_ne_nil hgc

/-! ## Discovery: single-response processing (claim C3) -/

theorem discLoop_spec (plen lvl : Nat) (pth : Option String) :
    ∀ (pairs : List (String × String)) (tr : Node) (acc : List DTask),
      discLoop plen lvl pth pairs tr acc =
        (pairs.foldl (fun tr2 pr => addNodeWithPathString tr2 (joinPath pth pr.2) pr.1) tr,
         acc ++ (if lvl + 1 < plen then
           pairs.map (fun pr => (⟨pr.1, lvl + 1, some (joinPath pth pr.2)⟩ : DTask)) else [])) := by
  intro pairs
  induction pairs with
  | nil => intro tr acc; simp [discLoop]
  | cons pr rest ih =>
    intro tr acc
    simp only [discLoop, List.foldl_cons, List.map_cons]
    rw [ih]
    by_cases hlt : lvl + 1 < plen
    · simp [hlt]
    · simp [hlt]

/-- Claim C3: when a fetch task tagged with a level and a parent path
resolves, the counter is decremented by one and raised by the number of new
tasks; the extractor of the level is applied to the page and for each
returned (url, name) pair the node at the joined structure path is inserted
with that url; a follow-up task tagged with level+1 and the structure path
exists exactly when level+1 is below the number of extractors, in pair
order; create_start_request raises the counter by one and returns a single
task for the start URL tagged with level 0 and no parent path. -/
theorem c3_process_and_start {α : Type} (extractors : List (String → List (String × String)))
    (cb : Option (Node → Option α)) (st : DiscSt) (t : DTask) (su : String) (st0 : DiscSt) :
    (processCat extractors cb st t).1.remaining
        = st.remaining - 1 + ((processCat extractors cb st t).2.1.length : Int)
    ∧ (processCat extractors cb st t).2.1
        = (if t.level + 1 < extractors.length then
            ((extractors.getD t.level (fun _ => [])) t.url).map
              (fun pr => (⟨pr.1, t.level + 1, some (joinPath t.path pr.2)⟩ : DTask))
          else [])
    ∧ (processCat extractors cb st t).1.tree
        = ((extractors.getD t.level (fun _ => [])) t.url).foldl
            (fun tr pr => addNodeWithPathString tr (joinPath t.path pr.2) pr.1) st.tree
    ∧ (createStartRequest su st0).1.remaining = st0.remaining + 1
    ∧ (createStartRequest su st0).2 = ⟨su, 0, none⟩ := by
  refine ⟨?_, ?_, ?_, rfl, rfl⟩
  · simp [processCat, discLoop_spec]
  · simp [processCat, discLoop_spec]
  · simp [processCat, discLoop_spec]

/-! ## Discovery: the pending-work counter invariant (claim C1) -/

/-- The run invariant of a discovery: the counter equals the number of
outstanding fetches, and the completion callback has fired exactly once if
and only if no fetch is outstanding. -/
def DiscInv (st : DiscSt) : Prop :=
  st.remaining = (st.pending.length : Int)
  ∧ st.completions = (if st.pending.isEmpty then 1 else 0)

theorem processCat_remaining {α : Type} (extractors : List (String → List (String × String)))
    (cb : Option (Node → Option α)) (st : DiscSt) (t : DTask) :
    (processCat extractors cb st t).1.remaining
      = st.remaining - 1 + ((processCat extractors cb st t).2.1.length : Int) := by
  simp [processCat, discLoop_spec]

theorem processCat_completions {α : Type} (extractors : List (String → List (String × String)))
    (cb : Option (Node → Option α)) (st : DiscSt) (t : DTask) :
    (processCat extractors cb st t).1.completions
      = st.completions + (if (processCat extractors cb st t).1.remaining = 0 then 1 else 0) := by
  simp only [processCat]
  by_cases h : st.remaining - 1 + ((discLoop extractors.length t.level t.path
      ((extractors.getD t.level (fun _ => [])) t.url) st.tree []).2.length : Int) = 0
  · simp [h]
  · simp [h]

theorem processCat_pending {α : Type} (extractors : List (String → List (String × String)))
    (cb : Option (Node → Option α)) (st : DiscSt) (t : DTask) :
    (processCat extractors cb st t).1.pending = st.pending := by
  simp [processCat]

theorem stepDisc_inv {α : Type} (extractors : List (String → List (String × String)))
    (cb : Option (Node → Option α)) (st : DiscSt) (i : Nat)
    (h : DiscInv st) : DiscInv (stepDisc extractors cb st i) := by
  obtain ⟨h1, h2⟩ := h
  by_cases he : st.pending.isEmpty
  · simp [stepDisc, he]
    exact ⟨h1, h2⟩
  · have hlen : 0 < st.pending.length := by
      cases hp : st.pending with
      | nil => rw [hp] at he; simp at he
      | cons a l => simp [hp]
    have hj : i % st.pending.length < st.pending.length := Nat.mod_lt i hlen
    have hstep : stepDisc extractors cb st i =
        { (processCat extractors cb st (st.pending.getD (i % st.pending.length) ⟨"", 0, none⟩)).1 with
          pending := st.pending.eraseIdx (i % st.pending.length)
            ++ (processCat extractors cb st (st.pending.getD (i % st.pending.length) ⟨"", 0, none⟩)).2.1 } := by
      simp [stepDisc, he]
    rw [hstep]
    refine ⟨?_, ?_⟩
    · show (processCat extractors cb st (st.pending.getD (i % st.pending.length) ⟨"", 0, none⟩)).1.remaining
        = ((st.pending.eraseIdx (i % st.pending.length)
          ++ (processCat extractors cb st (st.pending.getD (i % st.pending.length) ⟨"", 0, none⟩)).2.1).length : Int)
      rw [processCat_remaining, h1, List.length_append, List.length_eraseIdx_of_lt hj]
      push_cast
      omega
    · show (processCat extractors cb st (st.pending.getD (i % st.pending.length) ⟨"", 0, none⟩)).1.completions
        = if (st.pending.eraseIdx (i % st.pending.length)
            ++ (processCat extractors cb st (st.pending.getD (i % st.pending.length) ⟨"", 0, none⟩)).2.1).isEmpty = true
          then 1 else 0
      rw [processCat_completions, h2, if_neg he, processCat_remaining, h1]
      have hlen2 : (st.pending.eraseIdx (i % st.pending.length)
          ++ (processCat extractors cb st (st.pending.getD (i % st.pending.length) ⟨"", 0, none⟩)).2.1).length
          = st.pending.length - 1
            + (processCat extractors cb st (st.pending.getD (i % st.pending.length) ⟨"", 0, none⟩)).2.1.length := by
        rw [List.length_append, List.length_eraseIdx_of_lt hj]
      have hiso : ∀ (l : List DTask), (l.isEmpty = true) ↔ l.length = 0 := by
        intro l; cases l <;> simp
      by_cases hz : (st.pending.length : Int) - 1
          + ((processCat extractors cb st (st.pending.getD (i % st.pending.length) ⟨"", 0, none⟩)).2.1.length : Int) = 0
      · rw [if_pos hz, if_pos ((hiso _).mpr (by rw [hlen2]; omega))]
      · rw [if_neg hz, if_neg (by rw [hiso, hlen2]; omega)]

theorem runDisc_inv {α : Type} (extractors : List (String → List (String × String)))
    (cb : Option (Node → Option α)) :
    ∀ (sched : List Nat) (st : DiscSt), DiscInv st → DiscInv (runDisc extractors cb st sched) := by
  intro sched
  induction sched with
  | nil => intro st h; exact h
  | cons i is ih =>
    intro st h
    exact ih _ (stepDisc_inv extractors cb st i h)

theorem initDisc_inv (siteName startUrl : String) : DiscInv (initDisc siteName startUrl) := by
  constructor
  · rfl
  · rfl

/-- Claim C1: for every list of extractors, every optional completion
callback and every scheduling order of the outstanding fetches, after any
run of discovery started by create_start_request the pending-work counter
equals the number of outstanding fetches (hence is observed at zero only
with no fetch outstanding and no spawning resolution pending), and the
completion callback has been invoked at most once, exactly once precisely
when the run has drained all outstanding fetches. -/
theorem c1_counter_and_completion {α : Type} (extractors : List (String → List (String × String)))
    (cb : Option (Node → Option α)) (siteName startUrl : String) (sched : List Nat) :
    (runDisc extractors cb (initDisc siteName startUrl) sched).remaining
      = ((runDisc extractors cb (initDisc siteName startUrl) sched).pending.length : Int)
    ∧ (runDisc extractors cb (initDisc siteName startUrl) sched).completions ≤ 1
    ∧ ((runDisc extractors cb (initDisc siteName startUrl) sched).completions = 1
        ↔ (runDisc extractors cb (initDisc siteName startUrl) sched).pending = []) := by
  obtain ⟨h1, h2⟩ := runDisc_inv extractors cb sched (initDisc siteName startUrl)
    (initDisc_inv siteName startUrl)
  refine ⟨h1, ?_, ?_⟩
  · rw [h2]
    by_cases he : (runDisc extractors cb (initDisc siteName startUrl) sched).pending.isEmpty
    · simp [he]
    · simp [he]
  · rw [h2]
    by_cases he : (runDisc extractors cb (initDisc siteName startUrl) sched).pending.isEmpty
    · simp [he]
      exact List.isEmpty_iff.mp he
    · simp [he]
      intro hc
      exact absurd (by simp [hc] : (runDisc extractors cb (initDisc siteName
        startUrl) sched).pending.isEmpty = true) (by simp [he])

/-! ## Discovery without a completion callback (claim C8) -/

theorem filterMap_id_map_some {β γ : Type} (f : β → γ) :
    ∀ l : List β, (l.map (fun b => some (f b))).filterMap id = l.map f := by
  intro l
  induction l with
  | nil => rfl
  | cons b l ih => simp [ih]

theorem filterMap_some_fn {β γ : Type} (f : β → γ) :
    ∀ l : List β, l.filterMap (fun b => some (f b)) = l.map f := by
  intro l
  induction l with
  | nil => rfl
  | cons b l ih => simp [List.filterMap_cons, ih]

theorem processCat_outputs {α : Type} (extractors : List (String → List (String × String)))
    (cb : Option (Node → Option α)) (st : DiscSt) (t : DTask) :
    (processCat extractors cb st t).2.2
      = (if (processCat extractors cb st t).1.remaining = 0 then
          [match cb with
           | some f => (f (processCat extractors cb st t).1.tree).map DOut.cont
           | none => none]
         else [])
        ++ (processCat extractors cb st t).2.1.map (fun r => some (DOut.fetch r)) := by
  simp only [processCat]
  by_cases h : st.remaining - 1 + ((discLoop extractors.length t.level t.path
      ((extractors.getD t.level (fun _ => [])) t.url) st.tree []).2.length : Int) = 0
  · simp [h]
  · simp [h]

/-- Claim C8: with no completion callback configured, the values yielded by
processing a resolved fetch contain, besides the spawned follow-up fetch
tasks, nothing: filtering out the None placeholder yields exactly the fetch
tasks, and in the completing case the extra yielded element is the None
returned by the do-nothing default. -/
theorem c8_no_callback_silent {α : Type} (extractors : List (String → List (String × String)))
    (st : DiscSt) (t : DTask) :
    ((processCat extractors (none : Option (Node → Option α)) st t).2.2.filterMap id
      = (processCat extractors (none : Option (Node → Option α)) st t).2.1.map DOut.fetch)
    ∧ ((processCat extractors (none : Option (Node → Option α)) st t).1.remaining = 0 →
        (processCat extractors (none : Option (Node → Option α)) st t).2.2.head? = some none) := by
  constructor
  · rw [processCat_outputs]
    by_cases h : (processCat extractors (none : Option (Node → Option α)) st t).1.remaining = 0
    · rw [if_pos h]
      simp [filterMap_id_map_some, filterMap_some_fn]
    · rw [if_neg h]
      simp [filterMap_id_map_some, filterMap_some_fn]
  · intro h
    rw [processCat_outputs, if_pos h]
    rfl

/-! ## Counting IN_PROGRESS nodes -/

theorem propagateUpR_step_none (x : String) (rrest : List String) (t : Node)
    (hg : getNodeAtPath t rrest.reverse = none) :
    propagateUpR t (x :: rrest) = t := by
  rw [propagateUpR_cons, hg]

theorem countL_replace (seg : String) (f : Node → Node) :
    ∀ (cs : List Node) (c : Node), getChild cs seg = some c →
      countInProgL (replaceChild cs seg f) + countInProg c
        = countInProgL cs + countInProg (f c) := by
  intro cs
  induction cs with
  | nil => intro c h; simp [getChild] at h
  | cons d cs ih =>
    intro c h
    by_cases hd : d.name = seg
    · simp [getChild, hd] at h
      subst h
      simp only [replaceChild, if_pos (show (d.name == seg) = true by simp [hd])]
      simp only [countInProgL]
      omega
    · simp [getChild, hd] at h
      simp only [replaceChild, if_neg (show ¬((d.name == seg) = true) by simp [hd])]
      simp only [countInProgL]
      have := ih c h
      omega

theorem count_set : ∀ (p : List String) (t n : Node) (s : VisitState),
    getNodeAtPath t p = some n →
    countInProg (setVisitStateAt t p s false) + (if n.visit_state = .IN_PROGRESS then 1 else 0)
      = countInProg t + (if s = .IN_PROGRESS then 1 else 0) := by
  intro p
  induction p with
  | nil =>
    intro t n s h
    simp only [getNodeAtPath] at h
    cases h
    cases t with
    | mk nm u st cs =>
      have hred : setVisitStateAt (Node.mk nm u st cs) [] s false = Node.mk nm u s cs := rfl
      rw [hred]
      simp only [countInProg, Node.visit_state]
      omega
  | cons seg rest ih =>
    intro t n s h
    cases t with
    | mk nm u st cs =>
      simp only [getNodeAtPath, Node.children] at h
      cases hc : getChild cs seg with
      | none => rw [hc] at h; simp at h
      | some c =>
        rw [hc] at h
        simp only [Option.some_bind] at h
        simp only [setVisitStateAt, Node.children, Node.name, Node.url, Node.visit_state]
        simp only [countInProg]
        have h1 := countL_replace seg (fun c => setVisitStateAt c rest s false) cs c hc
        have h2 := ih c n s h
        simp only [Node.visit_state] at h2
        beta_reduce at h1
        omega

theorem count_zero_setVisited (t : Node) (p : List String) (h : countInProg t = 0) :
    countInProg (setVisitStateAt t p .VISITED false) = 0 := by
  cases hg : getNodeAtPath t p with
  | none => rw [setVisit_nop .VISITED p t hg]; exact h
  | some n =>
    have h1 := count_set p t n .VISITED hg
    by_cases hn : n.visit_state = .IN_PROGRESS
    · simp [hn] at h1; omega
    · simp [hn] at h1; omega

theorem count_le_setVisited_succ (t : Node) (p : List String) :
    countInProg t ≤ countInProg (setVisitStateAt t p .VISITED false) + 1 := by
  cases hg : getNodeAtPath t p with
  | none => rw [setVisit_nop .VISITED p t hg]; omega
  | some n =>
    have h1 := count_set p t n .VISITED hg
    by_cases hn : n.visit_state = .IN_PROGRESS
    · simp [hn] at h1; omega
    · simp [hn] at h1; omega

theorem count_prop_zero : ∀ (rq : List String) (t : Node),
    countInProg t = 0 → countInProg (propagateUpR t rq) = 0 := by
  intro rq
  induction rq with
  | nil => intro t h; exact h
  | cons x rrest ih =>
    intro t h
    cases hg : getNodeAtPath t rrest.reverse with
    | none => rw [propagateUpR_step_none x rrest t hg]; exact h
    | some pn =>
      cases hcvb : childrenVisited pn with
      | true =>
        rw [propagateUpR_step_true x rrest t pn hg hcvb]
        exact ih _ (count_zero_setVisited t rrest.reverse h)
      | false =>
        rw [propagateUpR_step_false x rrest t pn hg hcvb]
        exact h

/-! ## IN_PROGRESS nodes are leaves: preservation lemmas -/

theorem inProgL_mem : ∀ cs : List Node, inProgLeavesL cs = true → ∀ c ∈ cs, inProgLeaves c = true := by
  intro cs
  induction cs with
  | nil => intro _ c hc; simp at hc
  | cons d cs ih =>
    intro h c hc
    simp only [inProgLeavesL, Bool.and_eq_true] at h
    rcases List.mem_cons.mp hc with h1 | h2
    · exact h1 ▸ h.1
    · exact ih h.2 c h2

theorem inProgL_replace (seg : String) (f : Node → Node) :
    ∀ cs : List Node, inProgLeavesL cs = true →
      (∀ c, getChild cs seg = some c → inProgLeaves (f c) = true) →
      inProgLeavesL (replaceChild cs seg f) = true := by
  intro cs
  induction cs with
  | nil => intro _ _; rfl
  | cons c cs ih =>
    intro h hc
    simp only [inProgLeavesL, Bool.and_eq_true] at h
    by_cases hn : c.name = seg
    · simp only [replaceChild, if_pos (show (c.name == seg) = true by simp [hn])]
      simp only [inProgLeavesL, Bool.and_eq_true]
      exact ⟨hc c (by simp [getChild, hn]), h.2⟩
    · simp only [replaceChild, if_neg (show ¬((c.name == seg) = true) by simp [hn])]
      simp only [inProgLeavesL, Bool.and_eq_true]
      refine ⟨h.1, ih h.2 (fun d hd => hc d ?_)⟩
      simp [getChild, hn, hd]

theorem replace_isEmpty (seg : String) (f : Node → Node) :
    ∀ cs : List Node, (replaceChild cs seg f).isEmpty = cs.isEmpty := by
  intro cs
  cases cs with
  | nil => rfl
  | cons c cs =>
    by_cases hn : c.name = seg
    · simp [replaceChild, hn]
    · simp [replaceChild, hn]

theorem inProg_set_visited : ∀ (p : List String) (t : Node),
    inProgLeaves t = true → inProgLeaves (setVisitStateAt t p .VISITED false) = true := by
  intro p
  induction p with
  | nil =>
    intro t h
    cases t with
    | mk nm u st cs =>
      have hred : setVisitStateAt (Node.mk nm u st cs) [] .VISITED false = Node.mk nm u .VISITED cs := rfl
      rw [hred]
      simp only [inProgLeaves, Bool.and_eq_true] at h ⊢
      exact ⟨by simp, h.2⟩
  | cons seg rest ih =>
    intro t h
    cases t with
    | mk nm u st cs =>
      simp only [setVisitStateAt, Node.children, Node.name, Node.url, Node.visit_state]
      simp only [inProgLeaves, Bool.and_eq_true] at h ⊢
      constructor
      · rw [replace_isEmpty]
        exact h.1
      · exact inProgL_replace seg _ cs h.2
          (fun c hc => ih c (inProgL_mem cs h.2 c (mem_of_getChild hc)))

theorem inProg_prop : ∀ (rq : List String) (t : Node),
    inProgLeaves t = true → inProgLeaves (propagateUpR t rq) = true := by
  intro rq
  induction rq with
  | nil => intro t h; exact h
  | cons x rrest ih =>
    intro t h
    cases hg : getNodeAtPath t rrest.reverse with
    | none => rw [propagateUpR_step_none x rrest t hg]; exact h
    | some pn =>
      cases hcvb : childrenVisited pn with
      | true =>
        rw [propagateUpR_step_true x rrest t pn hg hcvb]
        exact ih _ (inProg_set_visited rrest.reverse t h)
      | false =>
        rw [propagateUpR_step_false x rrest t pn hg hcvb]
        exact h

theorem inProg_set_leaf : ∀ (p : List String) (t n : Node) (s : VisitState),
    inProgLeaves t = true → getNodeAtPath t p = some n → n.children = [] →
    inProgLeaves (setVisitStateAt t p s false) = true := by
  intro p
  induction p with
  | nil =>
    intro t n s h hg hl
    simp only [getNodeAtPath] at hg
    cases hg
    cases t with
    | mk nm u st cs =>
      simp only [Node.children] at hl
      subst hl
      have hred : setVisitStateAt (Node.mk nm u st []) [] s false = Node.mk nm u s [] := rfl
      rw [hred]
      simp [inProgLeaves, inProgLeavesL]
  | cons seg rest ih =>
    intro t n s h hg hl
    cases t with
    | mk nm u st cs =>
      simp only [getNodeAtPath, Node.children] at hg
      cases hc : getChild cs seg with
      | none => rw [hc] at hg; simp at hg
      | some c =>
        rw [hc] at hg
        simp only [Option.some_bind] at hg
        simp only [setVisitStateAt, Node.children, Node.name, Node.url, Node.visit_state]
        simp only [inProgLeaves, Bool.and_eq_true] at h ⊢
        constructor
        · rw [replace_isEmpty]
          exact h.1
        · refine inProgL_replace seg _ cs h.2 (fun d hd => ?_)
          rw [hc] at hd
          cases hd
          exact ih c n s (inProgL_mem cs h.2 c (mem_of_getChild hc)) hg hl

/-! ## Unique sibling names: preservation lemmas -/

theorem uniqL_mem : ∀ cs : List Node, uniqNamesL cs = true → ∀ c ∈ cs, uniqNames c = true := by
  intro cs
  induction cs with
  | nil => intro _ c hc; simp at hc
  | cons d cs ih =>
    intro h c hc
    simp only [uniqNamesL, Bool.and_eq_true] at h
    rcases List.mem_cons.mp hc with h1 | h2
    · exact h1 ▸ h.1
    · exact ih h.2 c h2

theorem uniqL_replace (seg : String) (f : Node → Node) :
    ∀ cs : List Node, uniqNamesL cs = true →
      (∀ c, getChild cs seg = some c → uniqNames (f c) = true) →
      uniqNamesL (replaceChild cs seg f) = true := by
  intro cs
  induction cs with
  | nil => intro _ _; rfl
  | cons c cs ih =>
    intro h hc
    simp only [uniqNamesL, Bool.and_eq_true] at h
    by_cases hn : c.name = seg
    · simp only [replaceChild, if_pos (show (c.name == seg) = true by simp [hn])]
      simp only [uniqNamesL, Bool.and_eq_true]
      exact ⟨hc c (by simp [getChild, hn]), h.2⟩
    · simp only [replaceChild, if_neg (show ¬((c.name == seg) = true) by simp [hn])]
      simp only [uniqNamesL, Bool.and_eq_true]
      refine ⟨h.1, ih h.2 (fun d hd => hc d ?_)⟩
      simp [getChild, hn, hd]

theorem setAllL_names (s : VisitState) :
    ∀ cs : List Node, (setAllL s cs).map Node.name = cs.map Node.name := by
  intro cs
  induction cs with
  | nil => rfl
  | cons c cs ih => simp [setAllL, setAll_name, ih]

mutual
theorem uniq_setAll (s : VisitState) : ∀ n : Node, uniqNames n = true → uniqNames (setAll s n) = true
  | .mk nm u st cs, h => by
    simp only [uniqNames, Bool.and_eq_true] at h
    simp only [setAll, uniqNames, Bool.and_eq_true]
    exact ⟨by rw [setAllL_names]; exact h.1, uniq_setAllL s cs h.2⟩

theorem uniq_setAllL (s : VisitState) : ∀ cs : List Node, uniqNamesL cs = true → uniqNamesL (setAllL s cs) = true
  | [], _ => rfl
  | c :: cs, h => by
    simp only [uniqNamesL, Bool.and_eq_true] at h
    simp only [setAllL, uniqNamesL, Bool.and_eq_true]
    exact ⟨uniq_setAll s c h.1, uniq_setAllL s cs h.2⟩
end

theorem uniq_set : ∀ (p : List String) (t : Node) (s : VisitState) (b : Bool),
    uniqNames t = true → uniqNames (setVisitStateAt t p s b) = true := by
  intro p
  induction p with
  | nil =>
    intro t s b h
    cases b with
    | true =>
      have hred : setVisitStateAt t [] s true = setAll s t := rfl
      rw [hred]
      exact uniq_setAll s t h
    | false =>
      cases t with
      | mk nm u st cs =>
        have hred : setVisitStateAt (Node.mk nm u st cs) [] s false = Node.mk nm u s cs := rfl
        rw [hred]
        simpa [uniqNames] using h
  | cons seg rest ih =>
    intro t s b h
    cases t with
    | mk nm u st cs =>
      simp only [setVisitStateAt, Node.children, Node.name, Node.url, Node.visit_state]
      simp only [uniqNames, Bool.and_eq_true] at h ⊢
      constructor
      · rw [names_replace seg _ (fun c => setVisit_name s b rest c)]
        exact h.1
      · exact uniqL_replace seg _ cs h.2
          (fun c hc => ih c s b (uniqL_mem cs h.2 c (mem_of_getChild hc)))

theorem uniq_prop : ∀ (rq : List String) (t : Node),
    uniqNames t = true → uniqNames (propagateUpR t rq) = true := by
  intro rq
  induction rq with
  | nil => intro t h; exact h
  | cons x rrest ih =>
    intro t h
    cases hg : getNodeAtPath t rrest.reverse with
    | none => rw [propagateUpR_step_none x rrest t hg]; exact h
    | some pn =>
      cases hcvb : childrenVisited pn with
      | true =>
        rw [propagateUpR_step_true x rrest t pn hg hcvb]
        exact ih _ (uniq_set rrest.reverse t .VISITED false h)
      | false =>
        rw [propagateUpR_step_false x rrest t pn hg hcvb]
        exact h

/-! ## Specification of find_leaf_with_visit_state -/

theorem containsStr_false_ne : ∀ (xs : List String) (x y : String),
    containsStr xs x = false → y ∈ xs → ¬(y = x) := by
  intro xs x
  induction xs with
  | nil => intro y _ hy; simp at hy
  | cons a as ih =>
    intro y h hy
    simp only [containsStr, Bool.or_eq_false_iff] at h
    rcases List.mem_cons.mp hy with rfl | hmem
    · intro he
      rw [he] at h
      simp at h
    · exact ih y h.2 hmem

mutual
theorem findLeaf_spec : ∀ (n : Node) (s : VisitState) (p : List String),
    uniqNames n = true → findLeafPath s n = some p →
    ∃ m, getNodeAtPath n p = some m ∧ m.children = [] ∧ m.visit_state = s
  | .mk nm u st cs, s, p, hu, hf => by
    cases cs with
    | nil =>
      simp only [findLeafPath] at hf
      by_cases hs : (st == s) = true
      · rw [if_pos hs] at hf
        have hp : p = [] := by
          simpa using hf.symm
        subst hp
        refine ⟨.mk nm u st [], rfl, rfl, ?_⟩
        simpa [Node.visit_state] using hs
      · rw [if_neg hs] at hf
        simp at hf
    | cons c cs2 =>
      simp only [findLeafPath] at hf
      simp only [uniqNames, Bool.and_eq_true] at hu
      obtain ⟨d, p2, hq, hgd, m, hm, hml, hms⟩ :=
        findLeafL_spec (c :: cs2) s p hu.2 hu.1 hf
      subst hq
      refine ⟨m, ?_, hml, hms⟩
      simp only [getNodeAtPath, Node.children]
      rw [hgd]
      simpa using hm

theorem findLeafL_spec : ∀ (cs : List Node) (s : VisitState) (q : List String),
    uniqNamesL cs = true → nodupB (cs.map Node.name) = true → findLeafPathL s cs = some q →
    ∃ d p2, q = d.name :: p2 ∧ getChild cs d.name = some d ∧
      ∃ m, getNodeAtPath d p2 = some m ∧ m.children = [] ∧ m.visit_state = s
  | [], s, q, _, _, hf => by simp [findLeafPathL] at hf
  | c :: cs2, s, q, hu, hnd, hf => by
    simp only [uniqNamesL, Bool.and_eq_true] at hu
    simp only [List.map_cons, nodupB, Bool.and_eq_true, Bool.not_eq_true'] at hnd
    simp only [findLeafPathL] at hf
    cases hfc : findLeafPath s c with
    | some p2 =>
      rw [hfc] at hf
      simp only [Option.some.injEq] at hf
      obtain ⟨m, hm, hml, hms⟩ := findLeaf_spec c s p2 hu.1 hfc
      exact ⟨c, p2, hf.symm, by simp [getChild], m, hm, hml, hms⟩
    | none =>
      rw [hfc] at hf
      obtain ⟨d, p2, hq, hgd, m, hm, hml, hms⟩ := findLeafL_spec cs2 s q hu.2 hnd.2 hf
      refine ⟨d, p2, hq, ?_, m, hm, hml, hms⟩
      have hne : ¬(d.name = c.name) :=
        containsStr_false_ne (cs2.map Node.name) c.name d.name hnd.1
          (List.mem_map_of_mem Node.name (mem_of_getChild hgd))
      simp only [getChild, if_neg (show ¬((c.name == d.name) = true) by
        simp
        intro he
        exact absurd he.symm hne)]
      exact hgd
end

/-! ## Freshly discovered trees -/

mutual
theorem allNew_count : ∀ n : Node, allNew n = true → countInProg n = 0
  | .mk nm u st cs, h => by
    simp only [allNew, Bool.and_eq_true, beq_iff_eq] at h
    simp only [countInProg]
    rw [allNew_countL cs h.2, if_neg (by rw [h.1]; intro he; exact VisitState.noConfusion he)]

theorem allNew_countL : ∀ cs : List Node, allNewL cs = true → countInProgL cs = 0
  | [], _ => rfl
  | c :: cs, h => by
    simp only [allNewL, Bool.and_eq_true] at h
    simp only [countInProgL]
    rw [allNew_count c h.1, allNew_countL cs h.2]
end

mutual
theorem allNew_inProg : ∀ n : Node, allNew n = true → inProgLeaves n = true
  | .mk nm u st cs, h => by
    simp only [allNew, Bool.and_eq_true, beq_iff_eq] at h
    simp only [inProgLeaves, Bool.and_eq_true]
    constructor
    · rw [h.1]
      simp
    · exact allNew_inProgL cs h.2

theorem allNew_inProgL : ∀ cs : List Node, allNewL cs = true → inProgLeavesL cs = true
  | [], _ => rfl
  | c :: cs, h => by
    simp only [allNewL, Bool.and_eq_true] at h
    simp only [inProgLeavesL, Bool.and_eq_true]
    exact ⟨allNew_inProg c h.1, allNew_inProgL cs h.2⟩
end

/-! ## Coordinator invariant (claim C10) -/

/-- The reachability invariant of the traversal coordinator: IN_PROGRESS
nodes are leaves, sibling names stay unique, and after forcing the cursor
leaf to VISITED no IN_PROGRESS node remains (so the cursor leaf is the only
possible IN_PROGRESS node); with no cursor nothing is IN_PROGRESS. -/
def CoordInv (st : CState) : Prop :=
  inProgLeaves st.tree = true ∧ uniqNames st.tree = true ∧
  (match st.currentPagePath with
   | none => countInProg st.tree = 0
   | some p => countInProg (setVisitStateAt st.tree p .VISITED false) = 0)

theorem progressToNext_inv (st : CState) (h1 : inProgLeaves st.tree = true)
    (h2 : uniqNames st.tree = true) (h3 : countInProg st.tree = 0) :
    CoordInv (progressToNext st).1 := by
  cases hf : findLeafPath .NEW st.tree with
  | none =>
    have hred : (progressToNext st).1 = st := by
      simp [progressToNext, hf]
    rw [hred]
    refine ⟨h1, h2, ?_⟩
    cases hcp : st.currentPagePath with
    | none => exact h3
    | some p => exact count_zero_setVisited st.tree p h3
  | some p =>
    obtain ⟨n, hn, hnl, hns⟩ := findLeaf_spec st.tree .NEW p h2 hf
    have hred : (progressToNext st).1 = saveState { st with
        tree := setVisitStateAt st.tree p .IN_PROGRESS true,
        currentPageUrl := (getNodeAtPath (setVisitStateAt st.tree p .IN_PROGRESS true) p).bind Node.url,
        currentPagePath := some p } := by
      simp [progressToNext, hf]
    rw [hred]
    refine ⟨?_, ?_, ?_⟩
    · show inProgLeaves (setVisitStateAt st.tree p .IN_PROGRESS true) = true
      rw [setVisit_true_leaf .IN_PROGRESS p st.tree n hn hnl]
      exact inProg_set_leaf p st.tree n .IN_PROGRESS h1 hn hnl
    · show uniqNames (setVisitStateAt st.tree p .IN_PROGRESS true) = true
      exact uniq_set p st.tree .IN_PROGRESS true h2
    · show countInProg (setVisitStateAt (setVisitStateAt st.tree p .IN_PROGRESS true) p .VISITED false) = 0
      rw [setVisit_true_leaf .IN_PROGRESS p st.tree n hn hnl]
      have hg2 : getNodeAtPath (setVisitStateAt st.tree p .IN_PROGRESS false) p
          = some (n.withState .IN_PROGRESS) := by
        rw [get_setVisit_self .IN_PROGRESS p st.tree, hn]
        rfl
      have e1 := count_set p st.tree n .IN_PROGRESS hn
      have e2 := count_set p (setVisitStateAt st.tree p .IN_PROGRESS false)
        (n.withState .IN_PROGRESS) .VISITED hg2
      rw [hns] at e1
      rw [withState_state] at e2
      simp at e1 e2
      omega

theorem onPageFinished_inv (st : CState) (u : Option String) (h : CoordInv st) :
    CoordInv (onPageFinished st u) := by
  obtain ⟨h1, h2, h3⟩ := h
  exact ⟨h1, h2, h3⟩

theorem onPagingFinished_none_cursor (st : CState) (hcp : st.currentPagePath = none) :
    onPagingFinished st = none := by
  unfold onPagingFinished
  rw [hcp]

theorem onPagingFinished_bad_path (st : CState) (p : List String)
    (hcp : st.currentPagePath = some p) (hg : getNodeAtPath st.tree p = none) :
    onPagingFinished st = none := by
  unfold onPagingFinished
  rw [hcp]
  simp [hg]

theorem onPagingFinished_some (st : CState) (p : List String) (n0 : Node)
    (hcp : st.currentPagePath = some p) (hg : getNodeAtPath st.tree p = some n0) :
    onPagingFinished st = some (progressToNext { st with tree := visitLeafAndPropagate st.tree p }) := by
  unfold onPagingFinished
  rw [hcp]
  simp [hg]

theorem onPagingFinished_inv (st : CState) (h : CoordInv st) (st2 : CState) (r : Option Req)
    (hp : onPagingFinished st = some (st2, r)) : CoordInv st2 := by
  obtain ⟨h1, h2, h3⟩ := h
  cases hcp : st.currentPagePath with
  | none => rw [onPagingFinished_none_cursor st hcp] at hp; simp at hp
  | some p =>
    cases hg : getNodeAtPath st.tree p with
    | none => rw [onPagingFinished_bad_path st p hcp hg] at hp; simp at hp
    | some n0 =>
      rw [onPagingFinished_some st p n0 hcp hg] at hp
      simp only [Option.some.injEq] at hp
      rw [hcp] at h3
      have h3x : countInProg (setVisitStateAt st.tree p .VISITED false) = 0 := h3
      have hcount : countInProg (visitLeafAndPropagate st.tree p) = 0 :=
        count_prop_zero p.reverse (setVisitStateAt st.tree p .VISITED false) h3x
      have hip : inProgLeaves (visitLeafAndPropagate st.tree p) = true :=
        inProg_prop p.reverse (setVisitStateAt st.tree p .VISITED false)
          (inProg_set_visited p st.tree h1)
      have huq : uniqNames (visitLeafAndPropagate st.tree p) = true :=
        uniq_prop p.reverse (setVisitStateAt st.tree p .VISITED false)
          (uniq_set p st.tree .VISITED false h2)
      have hinv := progressToNext_inv { st with tree := visitLeafAndPropagate st.tree p }
        hip huq hcount
      have hfst := congrArg Prod.fst hp
      rw [hfst] at hinv
      exact hinv

theorem initCoord_inv (t0 : Node) (hn : allNew t0 = true) (hu : uniqNames t0 = true) :
    CoordInv (initCoord t0) := by
  exact progressToNext_inv (saveState { freshCState with tree := t0 })
    (allNew_inProg t0 hn) hu (allNew_count t0 hn)

theorem runCoord_inv : ∀ (evs : List CEvent) (st : CState), CoordInv st →
    ∀ st2, runCoord st evs = some st2 → CoordInv st2 := by
  intro evs
  induction evs with
  | nil =>
    intro st h st2 hr
    simp only [runCoord, Option.some.injEq] at hr
    exact hr ▸ h
  | cons e es ih =>
    intro st h st2 hr
    simp only [runCoord] at hr
    cases hs : stepCoord st e with
    | none => rw [hs] at hr; simp at hr
    | some st1 =>
      rw [hs] at hr
      simp only [Option.some_bind] at hr
      refine ih st1 ?_ st2 hr
      cases e with
      | pageFin u =>
        simp only [stepCoord, Option.some.injEq] at hs
        exact hs ▸ onPageFinished_inv st u h
      | pagingFin =>
        simp only [stepCoord] at hs
        cases hop : onPagingFinished st with
        | none => rw [hop] at hs; simp at hs
        | some pr =>
          rw [hop] at hs
          simp at hs
          exact hs ▸ onPagingFinished_inv st h pr.1 pr.2 (by rw [hop])

/-- Claim C10 (implicit invariant): at every state of the traversal
coordinator reachable from a freshly discovered tree (all nodes NEW, sibling
names unique) by pager callbacks, at most one node of the category tree is
IN_PROGRESS, and every IN_PROGRESS node is a leaf, so non-leaf nodes only
ever hold NEW or VISITED. -/
theorem c10_in_progress_unique (t0 : Node) (hn : allNew t0 = true) (hu : uniqNames t0 = true)
    (evs : List CEvent) (st : CState) (hrun : runCoord (initCoord t0) evs = some st) :
    countInProg st.tree ≤ 1 ∧ inProgLeaves st.tree = true := by
  obtain ⟨h1, h2, h3⟩ := runCoord_inv evs (initCoord t0) (initCoord_inv t0 hn hu) st hrun
  refine ⟨?_, h1⟩
  cases hcp : st.currentPagePath with
  | none =>
    rw [hcp] at h3
    have h3x : countInProg st.tree = 0 := h3
    omega
  | some p =>
    rw [hcp] at h3
    have h3x : countInProg (setVisitStateAt st.tree p .VISITED false) = 0 := h3
    have hle := count_le_setVisited_succ st.tree p
    omega

/-! ## Progress-to-next-category reduction helpers -/

theorem progressToNext_none (st : CState) (hf : findLeafPath .NEW st.tree = none) :
    progressToNext st = (st, none) := by
  simp [progressToNext, hf]

theorem progressToNext_some (st : CState) (q : List String)
    (hf : findLeafPath .NEW st.tree = some q) :
    progressToNext st = (saveState { st with
        tree := setVisitStateAt st.tree q .IN_PROGRESS true,
        currentPageUrl := (getNodeAtPath (setVisitStateAt st.tree q .IN_PROGRESS true) q).bind Node.url,
        currentPagePath := some q },
      some (Req.pagerStart ((getNodeAtPath (setVisitStateAt st.tree q .IN_PROGRESS true) q).bind Node.url))) := by
  simp [progressToNext, hf]

/-! ## Claim C5 -/

/-- Claim C5: after propagation the coordinator re-runs the NEW-leaf search;
when a leaf is found it is a NEW leaf, it (and degenerately its subtree, by
the propagating set) is marked IN_PROGRESS, both cursors are set to the leaf
path and leaf URL and persisted with the updated tree, and the produced
request starts pagination at the leaf URL; when no NEW leaf is found the
state is unchanged and no request is produced. -/
theorem c5_next_work_selection (st : CState) (hu : uniqNames st.tree = true) :
    (findLeafPath .NEW st.tree = none → progressToNext st = (st, none))
    ∧ (∀ p, findLeafPath .NEW st.tree = some p →
        ∃ n, getNodeAtPath st.tree p = some n ∧ n.children = [] ∧ n.visit_state = .NEW
          ∧ (progressToNext st).2 = some (Req.pagerStart n.url)
          ∧ (progressToNext st).1.tree = setVisitStateAt st.tree p .IN_PROGRESS true
          ∧ (progressToNext st).1.currentPagePath = some p
          ∧ (progressToNext st).1.currentPageUrl = n.url
          ∧ (progressToNext st).1.saves = st.saves ++
              [⟨(progressToNext st).1.tree, n.url, some p⟩]) := by
  constructor
  · intro hf
    exact progressToNext_none st hf
  · intro p hf
    obtain ⟨n, hn, hnl, hns⟩ := findLeaf_spec st.tree .NEW p hu hf
    have hu2 : (getNodeAtPath (setVisitStateAt st.tree p .IN_PROGRESS true) p).bind Node.url
        = n.url := by
      rw [setVisit_true_leaf .IN_PROGRESS p st.tree n hn hnl,
        get_setVisit_self .IN_PROGRESS p st.tree, hn]
      simp [withState_url]
    refine ⟨n, hn, hnl, hns, ?_, ?_, ?_, ?_, ?_⟩ <;>
      rw [progressToNext_some st p hf] <;>
      simp [saveState, hu2]

def c5w : CState :=
  { tree := Node.mk "s" none .NEW [Node.mk "a" (some "ua") .NEW []],
    currentPageUrl := none, currentPagePath := none, saves := [] }

theorem c5_witness : uniqNames c5w.tree = true
    ∧ (progressToNext c5w).2 = some (Req.pagerStart (some "ua")) := by
  refine ⟨rfl, ?_⟩
  obtain ⟨n, hn, -, -, h5, -⟩ := (c5_next_work_selection c5w (by rfl)).2 ["a"] (by rfl)
  have hcomp : getNodeAtPath c5w.tree ["a"] = some (Node.mk "a" (some "ua") .NEW []) := rfl
  have hne : n = Node.mk "a" (some "ua") .NEW [] := (Option.some.inj (hcomp.symm.trans hn)).symm
  rw [h5, hne]
  rfl

/-! ## Claim C7 -/

/-- Claim C7: the page-finished handler updates and persists only
current_page_url: the tree (so every visit state) and the current-leaf-path
cursor are unchanged, and the single appended snapshot carries the unchanged
tree and cursor with the new page URL. -/
theorem c7_page_advance_frame (st : CState) (u : Option String) :
    (onPageFinished st u).tree = st.tree
    ∧ (onPageFinished st u).currentPagePath = st.currentPagePath
    ∧ (onPageFinished st u).currentPageUrl = u
    ∧ (onPageFinished st u).saves = st.saves ++ [⟨st.tree, u, st.currentPagePath⟩] :=
  ⟨rfl, rfl, rfl, rfl⟩

/-! ## Claim C4 -/

def c4state1 : CState := initCoord (Node.mk "site" (some "us") .NEW [])

def c4state2 : CState := ((onPagingFinished c4state1).getD (c4state1, none)).1

/-- Claim C4 counterexample: in the terminal case the paging-finished step
succeeds, changes the visit state of the tree (the single leaf goes from
IN_PROGRESS to VISITED), selects no next leaf, yet appends no snapshot: the
updated visit states are not persisted as part of that step. -/
theorem c4_counterexample :
    (onPagingFinished c4state1).isSome = true
    ∧ c4state2.saves.length = c4state1.saves.length
    ∧ visitAt c4state2.tree [] = some .VISITED
    ∧ visitAt c4state1.tree [] = some .IN_PROGRESS
    ∧ ((onPagingFinished c4state1).getD (c4state1, none)).2 = none := by
  refine ⟨rfl, rfl, rfl, rfl, rfl⟩

/-- Claim C4 as amended: the store saves after every page advance, and the
paging-finished handler saves exactly when a next NEW leaf is selected, in
which case the appended snapshot carries the fully updated state; in the
terminal case, where no NEW leaf remains, no save occurs at all and the
final VISITED states are not persisted. -/
theorem c4_amended_saves (st : CState) (u : Option String) (st2 : CState) (r : Option Req)
    (hp : onPagingFinished st = some (st2, r)) :
    (onPageFinished st u).saves = st.saves ++ [⟨st.tree, u, st.currentPagePath⟩]
    ∧ st2.saves.length = st.saves.length + (if r.isSome then 1 else 0)
    ∧ (r.isSome = true → st2.saves.getLast? = some ⟨st2.tree, st2.currentPageUrl, st2.currentPagePath⟩)
    ∧ (r.isSome = false → st2.saves = st.saves) := by
  refine ⟨rfl, ?_⟩
  cases hcp : st.currentPagePath with
  | none =>
    rw [onPagingFinished_none_cursor st hcp] at hp
    exact absurd hp (by simp)
  | some p =>
    cases hg : getNodeAtPath st.tree p with
    | none =>
      rw [onPagingFinished_bad_path st p hcp hg] at hp
      exact absurd hp (by simp)
    | some n0 =>
      rw [onPagingFinished_some st p n0 hcp hg] at hp
      simp only [Option.some.injEq] at hp
      cases hf : findLeafPath .NEW (visitLeafAndPropagate st.tree p) with
      | none =>
        rw [progressToNext_none { st with tree := visitLeafAndPropagate st.tree p } hf] at hp
        have hst2 : st2 = { st with tree := visitLeafAndPropagate st.tree p } :=
          (congrArg Prod.fst hp).symm
        have hr : r = none := (congrArg Prod.snd hp).symm
        subst hst2
        subst hr
        refine ⟨by simp, ?_, fun _ => rfl⟩
        intro hcontra
        simp at hcontra
      | some q =>
        rw [progressToNext_some { st with tree := visitLeafAndPropagate st.tree p } q hf] at hp
        have hst2 := (congrArg Prod.fst hp).symm
        have hr := (congrArg Prod.snd hp).symm
        subst hst2
        subst hr
        refine ⟨by simp [saveState], ?_, ?_⟩
        · intro _
          simp [saveState]
        · intro hcontra
          simp at hcontra

def c4w : CState := initCoord (Node.mk "s" none .NEW
  [Node.mk "a" (some "ua") .NEW [], Node.mk "b" (some "ub") .NEW []])

theorem c4_amended_witness :
    ((onPagingFinished c4w).getD (c4w, none)).1.saves.length = c4w.saves.length + 1 := by
  have h := c4_amended_saves c4w none ((onPagingFinished c4w).getD (c4w, none)).1
    ((onPagingFinished c4w).getD (c4w, none)).2 (by rfl)
  rw [h.2.1]
  rfl

/-! ## Claim C6 -/

/-- Claim C6: with a loaded persisted state, the single start request is a
pager start request built directly at the persisted current_page_url; it
depends only on the persisted cursor (the tree, so any NEW-leaf search over
it, is irrelevant); with no persisted state the single start request is the
discovery start request for the start URL. -/
theorem c6_resume_skips_discovery :
    (∀ (ps : Snap) (su : String), startRequests (some ps) su = Req.pagerStart ps.currentPageUrl)
    ∧ (∀ (ps ps2 : Snap) (su su2 : String), ps.currentPageUrl = ps2.currentPageUrl →
        startRequests (some ps) su = startRequests (some ps2) su2)
    ∧ (∀ su : String, startRequests none su = Req.discovererStart su) := by
  refine ⟨fun ps su => rfl, fun ps ps2 su su2 h => ?_, fun su => rfl⟩
  simp [startRequests, h]

theorem c6_witness :
    startRequests (some ⟨Node.mk "x" none .NEW [], some "u1", none⟩) "s1"
      = startRequests (some ⟨Node.mk "y" none .VISITED [], some "u1", some []⟩) "s2" :=
  c6_resume_skips_discovery.2.1 _ _ _ _ rfl

/-! ## Claim C9 -/

/-- Claim C9 counterexample: a construction passing an empty selectors list,
hence with no category extractors, succeeds instead of failing with
ValueError: the source only rejects a None selectors argument. -/
theorem c9_counterexample : spiderInit (some []) (some "s") none = InitResult.ok "s" := rfl

/-- Claim C9 as amended: construction fails with ValueError when the
category-selectors argument is None (an empty list is accepted), or when no
start URL is given as an argument and the class attribute is absent or
empty; with a selectors argument present and a start URL present as argument
or truthy class attribute, construction succeeds. -/
theorem c9_amended (sels : Option (List Unit)) (arg cls : Option String) :
    (sels = none → spiderInit sels arg cls = .valueError "must have category selectors")
    ∧ (∀ l, sels = some l → arg = none → pyTruthy cls = false →
        spiderInit sels arg cls = .valueError "must have start URL")
    ∧ (∀ l u, sels = some l → arg = some u → spiderInit sels arg cls = .ok u)
    ∧ (∀ l, sels = some l → arg = none → pyTruthy cls = true →
        spiderInit sels arg cls = .ok (cls.getD "")) := by
  refine ⟨?_, ?_, ?_, ?_⟩
  · intro h
    subst h
    rfl
  · intro l h1 h2 h3
    subst h1
    subst h2
    simp [spiderInit, h3]
  · intro l u h1 h2
    subst h1
    subst h2
    rfl
  · intro l h1 h2 h3
    subst h1
    subst h2
    simp [spiderInit, h3]

theorem c9_amended_witness :
    spiderInit none (some "u") none = InitResult.valueError "must have category selectors" :=
  (c9_amended none (some "u") none).1 rfl

/-! ## Witnesses for the remaining claims -/

def c2w : Node := Node.mk "s" none .NEW
  [Node.mk "a" none .NEW
    [Node.mk "x" (some "ux") .VISITED [], Node.mk "y" (some "uy") .IN_PROGRESS []],
   Node.mk "b" (some "ub") .NEW []]

theorem c2_witness :
    consistent c2w = true
    ∧ getNodeAtPath c2w ["a", "y"] = some (Node.mk "y" (some "uy") .IN_PROGRESS [])
    ∧ visitAt (visitLeafAndPropagate c2w ["a", "y"]) (["a", "y"].take 1) = some .VISITED := by
  refine ⟨rfl, rfl, ?_⟩
  exact ((c2_visited_propagation c2w ["a", "y"] (Node.mk "y" (some "uy") .IN_PROGRESS [])
    rfl rfl rfl).2.1 1 (by decide)).mpr (by rfl)

theorem c8_witness :
    (processCat [fun _ => ([] : List (String × String))] (none : Option (Node → Option Unit))
      ⟨1, Node.mk "s" none .NEW [], [], 0⟩ ⟨"s", 0, none⟩).2.2.head? = some none :=
  (c8_no_callback_silent _ _ _).2 (by decide)

def c10w : Node := Node.mk "s" none .NEW
  [Node.mk "a" (some "ua") .NEW [], Node.mk "b" (some "ub") .NEW []]

theorem c10_witness :
    countInProg (((runCoord (initCoord c10w) [CEvent.pagingFin]).getD (initCoord c10w)).tree) ≤ 1
    ∧ inProgLeaves (((runCoord (initCoord c10w) [CEvent.pagingFin]).getD (initCoord c10w)).tree)
        = true :=
  c10_in_progress_unique c10w rfl rfl [CEvent.pagingFin]
    ((runCoord (initCoord c10w) [CEvent.pagingFin]).getD (initCoord c10w)) (by rfl)

end ScrapyPatterns
